import Mathlib

/-!
Verification of the redis-cluster-proxy core against its specification.

The relevant C sources (src/cluster.c, src/proxy.c) are shallowly embedded
below: byte strings become `List Nat` (one entry per byte, values < 256),
machine integers become `Nat`/`Int` with explicit masking where overflow
matters, and the event-driven dispatch code becomes explicit state passing.
-/

set_option maxRecDepth 10000

namespace RCProxy

/-! ## Slot hashing (cluster.c, clusterKeyHashSlot) -/

/-- Modelled from the spec: crc16.c is not among the given sources; the spec
fixes the CRC16 variant as the XMODEM polynomial 0x1021 with initial value 0.
One shift step of that CRC. -/
def crc16Shift (crc : Nat) : Nat :=
  if crc &&& 0x8000 ≠ 0 then ((crc <<< 1) ^^^ 0x1021) &&& 0xFFFF
  else (crc <<< 1) &&& 0xFFFF

/-- Modelled from the spec: folding one input byte into the XMODEM CRC16. -/
def crc16Byte (crc b : Nat) : Nat :=
  crc16Shift^[8] (crc ^^^ ((b &&& 0xFF) <<< 8))

/-- Modelled from the spec: XMODEM CRC16 of a byte string, initial value 0. -/
def crc16 (data : List Nat) : Nat :=
  data.foldl crc16Byte 0

/-- Embedding of `clusterKeyHashSlot` (cluster.c lines 47-66): scan for the
first open brace (byte 123); if absent hash the whole key; otherwise scan for
the first closing brace (byte 125) after it; if absent or immediately
adjacent hash the whole key; otherwise hash the bytes strictly in between.
The C `& 0x3FFF` keeps the least significant 14 bits. -/
def clusterKeyHashSlot (key : List Nat) : Nat :=
  let keylen := key.length
  let s := key.findIdx (· = 123)
  if s = keylen then crc16 key &&& 0x3FFF
  else
    let e := s + 1 + (key.drop (s + 1)).findIdx (· = 125)
    if e = keylen ∨ e = s + 1 then crc16 key &&& 0x3FFF
    else crc16 ((key.drop (s + 1)).take (e - s - 1)) &&& 0x3FFF

/-- The byte selection exactly as the claim words it: when the key contains a
brace pair whose first open brace (at index s) is followed by a first close
brace (at index e, e > s + 1) with at least one byte strictly between them,
select the bytes strictly between; otherwise select the entire key. -/
def specHashedBytes (key : List Nat) : List Nat :=
  let s := key.findIdx (· = 123)
  if s < key.length then
    let e := s + 1 + (key.drop (s + 1)).findIdx (· = 125)
    if e < key.length ∧ s + 1 < e then (key.drop (s + 1)).take (e - (s + 1))
    else key
  else key

/-- The key "{x}abc" as bytes. -/
def keyTagXabc : List Nat := [123, 120, 125, 97, 98, 99]

/-- The key "{x}def" as bytes. -/
def keyTagXdef : List Nat := [123, 120, 125, 100, 101, 102]

/-- The key "x" as bytes. -/
def keyX : List Nat := [120]

/-- The key "{}foo" as bytes (empty hash tag). -/
def keyEmptyTag : List Nat := [123, 125, 102, 111, 111]

/-- The key "{a" as bytes (unterminated open brace). -/
def keyUnterminated : List Nat := [123, 97]

theorem findIdx_le_length (p : Nat → Bool) (l : List Nat) : l.findIdx p ≤ l.length := by
  induction l with
  | nil => simp [List.findIdx_nil]
  | cons a t ih =>
    by_cases h : p a
    · simp [List.findIdx_cons, h]
    · simp [List.findIdx_cons, h]
      omega

/-- C1: for every key the computed slot is below 16384 and equals the XMODEM
CRC16, reduced mod 16384, of exactly the bytes the claim designates (the
non-empty hash-tag content between the first open brace and the first close
brace after it, else the whole key); the three hash-tag keys from the claim
collide, keys with an empty or unterminated tag hash the whole key, and the
function is deterministic. -/
theorem C1_clusterKeyHashSlot_spec :
    (∀ key : List Nat,
        clusterKeyHashSlot key < 16384 ∧
        clusterKeyHashSlot key = crc16 (specHashedBytes key) % 16384) ∧
    clusterKeyHashSlot keyTagXabc = clusterKeyHashSlot keyTagXdef ∧
    clusterKeyHashSlot keyTagXabc = clusterKeyHashSlot keyX ∧
    clusterKeyHashSlot keyEmptyTag = crc16 keyEmptyTag % 16384 ∧
    clusterKeyHashSlot keyUnterminated = crc16 keyUnterminated % 16384 ∧
    (∀ key : List Nat, clusterKeyHashSlot key = clusterKeyHashSlot key) := by
  have hmask : ∀ n : Nat, n &&& 0x3FFF = n % 16384 := by
    intro n
    have h14 : (16384 : Nat) = 2 ^ 14 := by norm_num
    rw [show (0x3FFF : Nat) = 2 ^ 14 - 1 by norm_num, Nat.and_pow_two_sub_one_eq_mod, h14]
  have heq : ∀ key : List Nat,
      clusterKeyHashSlot key = crc16 (specHashedBytes key) % 16384 := by
    intro key
    simp only [clusterKeyHashSlot, specHashedBytes]
    have hfind : key.findIdx (· = 123) ≤ key.length := findIdx_le_length _ _
    have hfind2 : (key.drop (key.findIdx (· = 123) + 1)).findIdx (· = 125) ≤
        key.length - (key.findIdx (· = 123) + 1) := by
      simpa using findIdx_le_length (· = 125) (key.drop (key.findIdx (· = 123) + 1))
    by_cases hs : key.findIdx (· = 123) = key.length
    · rw [if_pos hs, if_neg (by omega), hmask]
    · rw [if_neg hs, if_pos (by omega : key.findIdx (· = 123) < key.length)]
      by_cases he : key.findIdx (· = 123) + 1 +
            (key.drop (key.findIdx (· = 123) + 1)).findIdx (· = 125) = key.length ∨
          key.findIdx (· = 123) + 1 +
            (key.drop (key.findIdx (· = 123) + 1)).findIdx (· = 125) =
              key.findIdx (· = 123) + 1
      · rw [if_pos he, if_neg (by omega), hmask]
      · rw [if_neg he, if_pos (by omega), hmask]
        have harith : key.findIdx (· = 123) + 1 +
              (key.drop (key.findIdx (· = 123) + 1)).findIdx (· = 125) -
                key.findIdx (· = 123) - 1 =
            key.findIdx (· = 123) + 1 +
              (key.drop (key.findIdx (· = 123) + 1)).findIdx (· = 125) -
                (key.findIdx (· = 123) + 1) := by omega
        rw [harith]
  refine ⟨fun key => ⟨?_, heq key⟩, by decide, by decide, ?_, ?_, fun _ => rfl⟩
  · rw [heq key]; exact Nat.mod_lt _ (by norm_num)
  · rw [heq keyEmptyTag]; decide
  · rw [heq keyUnterminated]; decide

/-! ## Client output flush (proxy.c, writeToClient) -/

/-- State of a client that matters to `writeToClient`: its output buffer,
the bytes-written counter and the has-write-handler flag. -/
structure WClient where
  obuf : List Nat
  written : Nat
  has_write_handler : Bool
deriving DecidableEq, Repr

/-- The file events registered for the client socket in the worker loop:
whether a readable handler (readQuery) and a writable handler (writeHandler)
are installed. -/
structure ClientFdEvents where
  readable : Bool
  writable : Bool
deriving DecidableEq, Repr

/-- Embedding of `writeToClient` (proxy.c lines 918-948), success path: the
write loop transfers up to `accepted` bytes; when the whole buffer has been
written the buffer and counter are cleared and, if the has-write-handler flag
is set, the code calls aeDeleteFileEvent with mask AE_READABLE on the client
fd and clears the flag. Fatal write errors (which free the client) are out
of scope of the flush behaviour modelled here. -/
def writeToClient (c : WClient) (ev : ClientFdEvents) (accepted : Nat) :
    WClient × ClientFdEvents :=
  let buflen := c.obuf.length
  let w := min buflen (c.written + accepted)
  if w = buflen then
    if c.has_write_handler then
      (⟨[], 0, false⟩, { ev with readable := false })
    else
      (⟨[], 0, c.has_write_handler⟩, ev)
  else
    ({ c with written := w }, ev)

/-- The bytes of the reply "+OK\r\n". -/
def okReplyBytes : List Nat := [43, 79, 75, 13, 10]

/-- C10: evaluating `writeToClient` at a client whose buffer becomes fully
written while a write handler is installed shows that the flush clears the
buffer and counter but deregisters the READABLE file event (the read-query
handler) and leaves the WRITABLE registration in place - the opposite of the
claim, which expects only the writable event to be removed. -/
theorem C10_writeToClient_removes_readable_event :
    (writeToClient ⟨okReplyBytes, 0, true⟩ ⟨true, true⟩ 5).1 = ⟨[], 0, false⟩ ∧
    (writeToClient ⟨okReplyBytes, 0, true⟩ ⟨true, true⟩ 5).2.readable = false ∧
    (writeToClient ⟨okReplyBytes, 0, true⟩ ⟨true, true⟩ 5).2.writable = true := by
  decide

/-! ## Reply forwarding (proxy.c, readClusterReply) -/

/-- The hiredis reader state as readClusterReply sees it after a complete
reply has been parsed by __hiredisReadReplyFromBuffer: `buf` is the raw bytes
read from the node socket (reader->buf, of length reader->len) and `pos` is
the number of bytes the reply parser consumed (reader->pos). -/
structure ReplyReader where
  buf : List Nat
  pos : Nat
deriving DecidableEq, Repr

/-- Embedding of the reply-forwarding block of `readClusterReply` (proxy.c
lines 1728-1740): addReplyRaw (modelled from the spec: it appends the given
bytes verbatim to the output buffer) is called with reader->buf and
len = reader->len, i.e. the whole buffer; then sdsrange keeps the buffer
from reader->pos to the end and pos is reset to 0. -/
def readClusterReplyDeliver (r : ReplyReader) (obuf : List Nat) :
    ReplyReader × List Nat :=
  let len := r.buf.length
  let obuf := obuf ++ r.buf.take len
  let newbuf := r.buf.drop r.pos
  (⟨newbuf, 0⟩, obuf)

/-- A reader buffer holding the complete reply "+OK\r\n" (5 consumed bytes)
followed by 3 further bytes "+PO" of the next reply. -/
def c3ReaderBuf : List Nat := [43, 79, 75, 13, 10, 43, 80, 79]

/-- C3: evaluating the reply-forwarding code at a reader whose buffer holds a
complete 5-byte reply plus 3 extra bytes: the code appends all 8 buffered
bytes to the client output buffer rather than the 5 consumed ones, yet trims
the reader at the consumed position, so the 3 extra bytes stay buffered and
will be appended again with the next reply - the appended range exceeds the
parser's consumed range. -/
theorem C3_reply_copy_exceeds_consumed_range :
    (readClusterReplyDeliver ⟨c3ReaderBuf, 5⟩ []).2 = c3ReaderBuf ∧
    c3ReaderBuf.take 5 ≠ c3ReaderBuf ∧
    (readClusterReplyDeliver ⟨c3ReaderBuf, 5⟩ []).1.buf = c3ReaderBuf.drop 5 := by
  decide

/-- C3 supporting fact: when the parser consumed the whole buffer (a single
complete reply and nothing more) the appended bytes do coincide with the
consumed range, which is why the bug only shows when a second reply is
already buffered. -/
theorem readClusterReplyDeliver_exact_when_fully_consumed
    (r : ReplyReader) (obuf : List Nat) (h : r.pos = r.buf.length) :
    (readClusterReplyDeliver r obuf).2 = obuf ++ r.buf.take r.pos ∧
    (readClusterReplyDeliver r obuf).1.buf = [] := by
  simp [readClusterReplyDeliver, h]

/-- Witness for the previous theorem at a concrete reader. -/
theorem readClusterReplyDeliver_exact_witness :
    (readClusterReplyDeliver ⟨okReplyBytes, 5⟩ []).2 =
        [] ++ okReplyBytes.take 5 ∧
    (readClusterReplyDeliver ⟨okReplyBytes, 5⟩ []).1.buf = [] :=
  readClusterReplyDeliver_exact_when_fully_consumed ⟨okReplyBytes, 5⟩ [] (by decide)

/-! ## Demotion pass (proxy.c, disableMultiplexingForClient) -/

/-- The request fields that the demotion pass inspects: owning client id,
request id, handler flags, pipelined prev/next links (by request id) and the
owned-by-client flag. The node rebinding via searchNodeByName always finds a
clone (the private maps are built by cloning every shared node), so node
identity is not tracked here. -/
structure DReq where
  id : Nat
  cl : Nat
  has_write_handler : Bool
  has_read_handler : Bool
  prev : Option Nat
  next : Option Nat
  owned_by_client : Bool
deriving DecidableEq, Repr

/-- The four request lists the pass touches. -/
structure DemotionState where
  sharedToSend : List DReq
  sharedPending : List DReq
  privToSend : List DReq
  privPending : List DReq
deriving DecidableEq, Repr

/-- Embedding of the requests_to_send walk of `disableMultiplexingForClient`
(proxy.c lines 616-643): entries of other clients stay; an entry holding the
write handler stays, and when it has a pipelined successor it becomes the
current `pipelined_request`; an entry whose prev link equals the current
`pipelined_request` stays and becomes the new `pipelined_request`; every
other entry of the client is moved (in list order) with owned_by_client set.
Returns (kept entries, moved entries). -/
def demoteToSendWalk (c : Nat) : List DReq → Option Nat → List DReq × List DReq
  | [], _ => ([], [])
  | r :: rest, pip =>
    if r.cl ≠ c then
      let out := demoteToSendWalk c rest pip
      (r :: out.1, out.2)
    else if r.has_write_handler then
      let pip := if r.next ≠ none then some r.id else pip
      let out := demoteToSendWalk c rest pip
      (r :: out.1, out.2)
    else if pip ≠ none ∧ r.prev = pip then
      let out := demoteToSendWalk c rest (some r.id)
      (r :: out.1, out.2)
    else
      let out := demoteToSendWalk c rest pip
      (out.1, { r with owned_by_client := true } :: out.2)

/-- Embedding of the requests_pending walk (proxy.c lines 644-660): entries
of other clients or with an installed read handler stay; every other entry
of the client is moved with owned_by_client set. -/
def demotePendingWalk (c : Nat) : List DReq → List DReq × List DReq
  | [] => ([], [])
  | r :: rest =>
    let out := demotePendingWalk c rest
    if r.cl = c ∧ r.has_read_handler = false then
      (out.1, { r with owned_by_client := true } :: out.2)
    else
      (r :: out.1, out.2)

/-- Embedding of `disableMultiplexingForClient` (proxy.c lines 602-662) for a
client that already has its private connection pool: walk the shared to_send
and pending lists, appending every moved request to the tail of the matching
private list. -/
def disableMultiplexingForClient (c : Nat) (s : DemotionState) : DemotionState :=
  let ts := demoteToSendWalk c s.sharedToSend none
  let pd := demotePendingWalk c s.sharedPending
  { sharedToSend := ts.1, sharedPending := pd.1,
    privToSend := s.privToSend ++ ts.2, privPending := s.privPending ++ pd.2 }

/-- A request of client 7 that is fully written and awaiting its reply with
its read handler installed, and whose pipelined successor is request 1. -/
def c9ReqPending : DReq := ⟨0, 7, false, true, none, some 1, false⟩

/-- The pipelined successor of request 0: still on the shared to_send list,
not yet writing (no write handler). -/
def c9ReqToSend : DReq := ⟨1, 7, false, false, some 0, none, false⟩

/-- C9 counterexample: running the demotion pass on a state whose shared
pending list holds request 0 (read handler installed) while the shared
to_send list holds its pipelined successor request 1 moves request 1 to the
client's private pool while request 0 stays on the shared pending list: the
pipelined chain 0 -> 1 straddles the two pools, contradicting the claim that
no request linked to a moved request remains on the shared lists. -/
theorem C9_chain_straddles_pools :
    (disableMultiplexingForClient 7
        ⟨[c9ReqToSend], [c9ReqPending], [], []⟩).privToSend =
      [{ c9ReqToSend with owned_by_client := true }] ∧
    (disableMultiplexingForClient 7
        ⟨[c9ReqToSend], [c9ReqPending], [], []⟩).sharedPending = [c9ReqPending] ∧
    c9ReqToSend.prev = some c9ReqPending.id := by
  decide

theorem demoteToSendWalk_moved_owned (c : Nat) (l : List DReq) (pip : Option Nat) :
    ∀ r ∈ (demoteToSendWalk c l pip).2, r.owned_by_client = true := by
  induction l generalizing pip with
  | nil => intro r h; simp [demoteToSendWalk] at h
  | cons a rest ih =>
    intro r h
    simp only [demoteToSendWalk] at h
    split at h
    · exact ih pip r h
    · split at h
      · exact ih _ r h
      · split at h
        · exact ih _ r h
        · rcases List.mem_cons.mp h with h1 | h1
          · rw [h1]
          · exact ih pip r h1

theorem demotePendingWalk_moved_owned (c : Nat) (l : List DReq) :
    ∀ r ∈ (demotePendingWalk c l).2, r.owned_by_client = true := by
  induction l with
  | nil => intro r h; simp [demotePendingWalk] at h
  | cons a rest ih =>
    intro r h
    simp only [demotePendingWalk] at h
    split at h
    · rcases List.mem_cons.mp h with h1 | h1
      · rw [h1]
      · exact ih r h1
    · exact ih r h

theorem demotePendingWalk_kept (c : Nat) (l : List DReq) :
    ∀ r ∈ (demotePendingWalk c l).1, r.cl = c → r.has_read_handler = true := by
  induction l with
  | nil => intro r h; simp [demotePendingWalk] at h
  | cons a rest ih =>
    intro r h
    simp only [demotePendingWalk] at h
    split at h
    · exact ih r h
    · rcases List.mem_cons.mp h with h1 | h1
      · subst h1
        intro hcl
        rename_i hcond
        cases hr : r.has_read_handler with
        | true => rfl
        | false => exact absurd ⟨hcl, hr⟩ hcond
      · exact ih r h1

theorem demoteToSendWalk_kept (c : Nat) (l : List DReq) (pip : Option Nat) :
    ∀ r ∈ (demoteToSendWalk c l pip).1,
      r.cl ≠ c ∨ r.has_write_handler = true ∨
      (∃ p ∈ (demoteToSendWalk c l pip).1, r.prev = some p.id) ∨
      (pip ≠ none ∧ r.prev = pip) := by
  induction l generalizing pip with
  | nil => intro r h; simp [demoteToSendWalk] at h
  | cons a rest ih =>
    by_cases hcl : a.cl ≠ c
    · have hdef : demoteToSendWalk c (a :: rest) pip =
          (a :: (demoteToSendWalk c rest pip).1, (demoteToSendWalk c rest pip).2) := by
        simp [demoteToSendWalk, hcl]
      rw [hdef]
      intro r h
      rcases List.mem_cons.mp h with h1 | h1
      · subst h1; exact Or.inl hcl
      · rcases ih pip r h1 with h2 | h2 | ⟨p, hp, hpr⟩ | h2
        · exact Or.inl h2
        · exact Or.inr (Or.inl h2)
        · exact Or.inr (Or.inr (Or.inl ⟨p, List.mem_cons_of_mem _ hp, hpr⟩))
        · exact Or.inr (Or.inr (Or.inr h2))
    · push_neg at hcl
      by_cases hwh : a.has_write_handler
      · have hdef : demoteToSendWalk c (a :: rest) pip =
            (a :: (demoteToSendWalk c rest
                (if a.next ≠ none then some a.id else pip)).1,
             (demoteToSendWalk c rest
                (if a.next ≠ none then some a.id else pip)).2) := by
          simp [demoteToSendWalk, hcl, hwh]
        rw [hdef]
        intro r h
        rcases List.mem_cons.mp h with h1 | h1
        · subst h1; exact Or.inr (Or.inl hwh)
        · by_cases hnx : a.next ≠ none
          · rw [if_pos hnx] at h1
            rcases ih (some a.id) r h1 with h2 | h2 | ⟨p, hp, hpr⟩ | ⟨_, h3⟩
            · exact Or.inl h2
            · exact Or.inr (Or.inl h2)
            · refine Or.inr (Or.inr (Or.inl ⟨p, List.mem_cons_of_mem _ ?_, hpr⟩))
              rw [if_pos hnx]; exact hp
            · refine Or.inr (Or.inr (Or.inl ⟨a, List.mem_cons_self _ _, h3⟩))
          · rw [if_neg hnx] at h1
            rcases ih pip r h1 with h2 | h2 | ⟨p, hp, hpr⟩ | h2
            · exact Or.inl h2
            · exact Or.inr (Or.inl h2)
            · refine Or.inr (Or.inr (Or.inl ⟨p, List.mem_cons_of_mem _ ?_, hpr⟩))
              rw [if_neg hnx]; exact hp
            · exact Or.inr (Or.inr (Or.inr h2))
      · by_cases hchain : pip ≠ none ∧ a.prev = pip
        · have hdef : demoteToSendWalk c (a :: rest) pip =
              (a :: (demoteToSendWalk c rest (some a.id)).1,
               (demoteToSendWalk c rest (some a.id)).2) := by
            simp only [demoteToSendWalk, if_neg (not_not_intro hcl),
              if_neg hwh, if_pos hchain]
          rw [hdef]
          intro r h
          rcases List.mem_cons.mp h with h1 | h1
          · subst h1; exact Or.inr (Or.inr (Or.inr hchain))
          · rcases ih (some a.id) r h1 with h2 | h2 | ⟨p, hp, hpr⟩ | ⟨_, h3⟩
            · exact Or.inl h2
            · exact Or.inr (Or.inl h2)
            · exact Or.inr (Or.inr (Or.inl ⟨p, List.mem_cons_of_mem _ hp, hpr⟩))
            · exact Or.inr (Or.inr (Or.inl ⟨a, List.mem_cons_self _ _, h3⟩))
        · have hdef : demoteToSendWalk c (a :: rest) pip =
              ((demoteToSendWalk c rest pip).1,
               { a with owned_by_client := true } ::
                 (demoteToSendWalk c rest pip).2) := by
            simp only [demoteToSendWalk, if_neg (not_not_intro hcl),
              if_neg hwh, if_neg hchain]
          rw [hdef]
          intro r h
          exact ih pip r h

/-- The conclusion of the amended C9 claim at a given client and state: after
the demotion pass every request on the private pool carries owned_by_client;
every request of the client left on the shared pending list has its read
handler installed; and every request of the client left on the shared
to_send list is mid-write or pipeline-linked to another request that also
remains on the shared to_send list. A pipelined chain can still straddle the
pools when a predecessor waits on the shared pending list with its read
handler installed, as the counterexample shows. -/
def C9AmendedPost (c : Nat) (s : DemotionState) : Prop :=
  (∀ r ∈ (disableMultiplexingForClient c s).privToSend, r.owned_by_client = true) ∧
  (∀ r ∈ (disableMultiplexingForClient c s).privPending, r.owned_by_client = true) ∧
  (∀ r ∈ (disableMultiplexingForClient c s).sharedPending,
      r.cl = c → r.has_read_handler = true) ∧
  (∀ r ∈ (disableMultiplexingForClient c s).sharedToSend,
      r.cl = c → r.has_write_handler = true ∨
        ∃ p ∈ (disableMultiplexingForClient c s).sharedToSend, r.prev = some p.id)

/-- C9 (amended): the demotion pass moves exactly the client's entries that
are not mid-write (or chained behind a mid-write entry, within to_send) and
not awaiting a reply with an installed read handler; every moved request has
owned_by_client set, and the entries skipped inside to_send are skipped
contiguously with their chain head. The original claim that no pipelined
link ever crosses the pools fails (see the counterexample): the pending walk
keeps a predecessor whose read handler is installed even when its successor
in to_send is moved. -/
theorem C9_demotion_pass_amended (c : Nat) (s : DemotionState)
    (h1 : ∀ r ∈ s.privToSend, r.owned_by_client = true)
    (h2 : ∀ r ∈ s.privPending, r.owned_by_client = true) :
    C9AmendedPost c s := by
  refine ⟨?_, ?_, ?_, ?_⟩
  · intro r h
    rcases List.mem_append.mp h with h3 | h3
    · exact h1 r h3
    · exact demoteToSendWalk_moved_owned c s.sharedToSend none r h3
  · intro r h
    rcases List.mem_append.mp h with h3 | h3
    · exact h2 r h3
    · exact demotePendingWalk_moved_owned c s.sharedPending r h3
  · intro r h
    exact demotePendingWalk_kept c s.sharedPending r h
  · intro r h hcl
    rcases demoteToSendWalk_kept c s.sharedToSend none r h with h3 | h3 | h3 | ⟨h4, _⟩
    · exact absurd hcl h3
    · exact Or.inl h3
    · exact Or.inr h3
    · exact absurd rfl h4

/-- Witness: the amended C9 theorem applied to the concrete straddling state
used by the counterexample. -/
theorem C9_demotion_pass_amended_witness :
    C9AmendedPost 7 ⟨[c9ReqToSend], [c9ReqPending], [], []⟩ :=
  C9_demotion_pass_amended 7 ⟨[c9ReqToSend], [c9ReqPending], [], []⟩
    (by intro r h; simp at h) (by intro r h; simp at h)

/-! ## Slot map (cluster.c: mapSlot, searchNodeBySlot, fetchClusterConfiguration) -/

/-- Strict lexicographic order on byte-string keys, as the radix tree orders
its keys. -/
def lexLt : List Nat → List Nat → Bool
  | [], [] => false
  | [], _ :: _ => true
  | _ :: _, [] => false
  | a :: as, b :: bs => decide (a < b) || (decide (a = b) && lexLt as bs)

/-- The ordered map behind the rax used for the slots map: an association
list sorted strictly ascending by key. Keys are raw byte strings, values are
node identifiers. -/
abbrev RaxMap : Type := List (List Nat × Nat)

/-- raxInsert: insert a key/value pair keeping the list sorted, replacing
the value when the key is already present. -/
def raxInsert (k : List Nat) (v : Nat) : RaxMap → RaxMap
  | [] => [(k, v)]
  | (k0, v0) :: rest =>
    if k = k0 then (k, v) :: rest
    else if lexLt k k0 then (k, v) :: (k0, v0) :: rest
    else (k0, v0) :: raxInsert k v rest

/-- raxSeek with operator ">=" followed by raxNext: the value at the first
key that is not below the query key. -/
def raxSeekGE (q : List Nat) : RaxMap → Option Nat
  | [] => none
  | (k, v) :: rest => if lexLt k q then raxSeekGE q rest else some v

/-- htonl of a 32-bit slot number: the four bytes in big-endian order, as
`mapSlot` stores them. -/
def beBytes (n : Nat) : List Nat :=
  [n / 16777216 % 256, n / 65536 % 256, n / 256 % 256, n % 256]

/-- Embedding of `mapSlot` (cluster.c lines 245-249): insert the node under
the big-endian 4-byte encoding of the slot. -/
def mapSlot (m : RaxMap) (slot : Nat) (node : Nat) : RaxMap :=
  raxInsert (beBytes slot) node m

/-- Embedding of `searchNodeBySlot` (cluster.c lines 432-445): seek the
first key at or above the big-endian encoding of the slot and return the
node stored there. -/
def searchNodeBySlot (m : RaxMap) (slot : Nat) : Option Nat :=
  raxSeekGE (beBytes slot) m

/-- Embedding of `getFirstMappedNode` (cluster.c lines 455-466): seek to the
smallest key and return its node. -/
def getFirstMappedNode (m : RaxMap) : Option Nat :=
  m.head?.map (·.2)

/-- One slot specification token of a CLUSTER NODES line, as
`fetchClusterConfiguration` (cluster.c lines 344-407) distinguishes them:
a dash range N-M, a single slot N, or a bracketed migrating/importing entry
(which records migration state but never calls mapSlot). -/
inductive SlotSpec where
  | range (start stop : Nat)
  | single (slot : Nat)
  | migrating (slot dest : Nat)
  | importing (slot src : Nat)
deriving DecidableEq, Repr

/-- The slots a spec hands to mapSlot: a range maps only its two endpoint
keys (the loop in between fills the per-node slots array, not the rax),
a single slot maps itself, bracketed specs map nothing. -/
def specEndpoints : SlotSpec → List Nat
  | .range start stop => [start, stop]
  | .single s => [s]
  | .migrating _ _ => []
  | .importing _ _ => []

/-- Processing the slot-spec tokens of one node line, exactly as the parsing
loop does: a range calls mapSlot on its start and then on its stop, a single
slot calls mapSlot once, bracketed specs leave the map unchanged. -/
def applySlotSpec (node : Nat) (m : RaxMap) : SlotSpec → RaxMap
  | .range start stop => mapSlot (mapSlot m start node) stop node
  | .single s => mapSlot m s node
  | .migrating _ _ => m
  | .importing _ _ => m

/-- Processing all slot specs of one node line in order. -/
def applyNodeSpecs (m : RaxMap) (node : Nat) (specs : List SlotSpec) : RaxMap :=
  specs.foldl (applySlotSpec node) m

/-- The slots map produced by a successful bootstrap over the given node
lines (node id paired with its slot specs), starting from the empty rax. -/
def buildSlotsMap (topo : List (Nat × List SlotSpec)) : RaxMap :=
  topo.foldl (fun m nl => applyNodeSpecs m nl.1 nl.2) []

theorem lexLt_irrefl (a : List Nat) : lexLt a a = false := by
  induction a with
  | nil => rfl
  | cons x xs ih => simp [lexLt, ih]

theorem lexLt_trans {a b c : List Nat} (h1 : lexLt a b = true)
    (h2 : lexLt b c = true) : lexLt a c = true := by
  induction a generalizing b c with
  | nil =>
    cases b with
    | nil => simp [lexLt] at h1
    | cons y ys =>
      cases c with
      | nil => simp [lexLt] at h2
      | cons z zs => rfl
  | cons x xs ih =>
    cases b with
    | nil => simp [lexLt] at h1
    | cons y ys =>
      cases c with
      | nil => simp [lexLt] at h2
      | cons z zs =>
        simp only [lexLt, Bool.or_eq_true, Bool.and_eq_true,
          decide_eq_true_eq] at h1 h2 ⊢
        rcases h1 with h1 | ⟨h1e, h1l⟩
        · rcases h2 with h2 | ⟨h2e, h2l⟩
          · exact Or.inl (h1.trans h2)
          · exact Or.inl (h2e ▸ h1)
        · rcases h2 with h2 | ⟨h2e, h2l⟩
          · exact Or.inl (h1e ▸ h2)
          · exact Or.inr ⟨h1e.trans h2e, ih h1l h2l⟩

theorem lexLt_trichotomy (a b : List Nat) :
    lexLt a b = true ∨ a = b ∨ lexLt b a = true := by
  induction a generalizing b with
  | nil =>
    cases b with
    | nil => exact Or.inr (Or.inl rfl)
    | cons y ys => exact Or.inl rfl
  | cons x xs ih =>
    cases b with
    | nil => exact Or.inr (Or.inr rfl)
    | cons y ys =>
      rcases Nat.lt_trichotomy x y with hxy | hxy | hxy
      · exact Or.inl (by simp [lexLt, hxy])
      · rcases ih ys with h | h | h
        · exact Or.inl (by simp [lexLt, hxy, h])
        · exact Or.inr (Or.inl (by rw [hxy, h]))
        · exact Or.inr (Or.inr (by simp [lexLt, hxy, h]))
      · exact Or.inr (Or.inr (by simp [lexLt, hxy]))

theorem beBytes_lt {a b : Nat} (ha : a < 4294967296) (hb : b < 4294967296) :
    lexLt (beBytes a) (beBytes b) = true ↔ a < b := by
  have d1 : a / 256 / 256 = a / 65536 := by
    rw [Nat.div_div_eq_div_mul]
  have d2 : a / 65536 / 256 = a / 16777216 := by
    rw [Nat.div_div_eq_div_mul]
  have d3 : b / 256 / 256 = b / 65536 := by
    rw [Nat.div_div_eq_div_mul]
  have d4 : b / 65536 / 256 = b / 16777216 := by
    rw [Nat.div_div_eq_div_mul]
  have e1 : a / 16777216 % 256 = a / 16777216 := Nat.mod_eq_of_lt (by omega)
  have e2 : b / 16777216 % 256 = b / 16777216 := Nat.mod_eq_of_lt (by omega)
  simp only [beBytes, lexLt, Bool.or_eq_true, Bool.and_eq_true,
    decide_eq_true_eq]
  rw [e1, e2]
  constructor
  · rintro (h | ⟨h1, h | ⟨h2, h | ⟨h3, h | ⟨h4, h5⟩⟩⟩⟩)
    · omega
    · omega
    · omega
    · omega
    · simp at h5
  · intro hab
    rcases Nat.lt_trichotomy (a / 16777216) (b / 16777216) with h | h | h
    · exact Or.inl h
    · refine Or.inr ⟨h, ?_⟩
      rcases Nat.lt_trichotomy (a / 65536 % 256) (b / 65536 % 256) with h2 | h2 | h2
      · exact Or.inl h2
      · refine Or.inr ⟨h2, ?_⟩
        rcases Nat.lt_trichotomy (a / 256 % 256) (b / 256 % 256) with h3 | h3 | h3
        · exact Or.inl h3
        · refine Or.inr ⟨h3, ?_⟩
          rcases Nat.lt_trichotomy (a % 256) (b % 256) with h4 | h4 | h4
          · exact Or.inl h4
          · exfalso; omega
          · exfalso; omega
        · exfalso; omega
      · exfalso; omega
    · exfalso; omega

theorem beBytes_ge {a b : Nat} (ha : a < 4294967296) (hb : b < 4294967296)
    (h : b ≤ a) : lexLt (beBytes a) (beBytes b) = false := by
  cases hlt : lexLt (beBytes a) (beBytes b)
  · rfl
  · exact absurd ((beBytes_lt ha hb).mp hlt) (by omega)

/-- The sortedness invariant of the rax model. -/
def RaxSorted (m : RaxMap) : Prop :=
  m.Pairwise (fun x y => lexLt x.1 y.1 = true)

theorem mem_raxInsert {k : List Nat} {v : Nat} {k0 : List Nat} {v0 : Nat} {m : RaxMap}
    (h : (k, v) ∈ raxInsert k0 v0 m) :
    (k = k0 ∧ v = v0) ∨ (k, v) ∈ m := by
  induction m with
  | nil =>
    simp only [raxInsert, List.mem_singleton] at h
    exact Or.inl ⟨congrArg Prod.fst h, congrArg Prod.snd h⟩
  | cons a rest ih =>
    simp only [raxInsert] at h
    split at h
    · rcases List.mem_cons.mp h with h1 | h1
      · exact Or.inl ⟨congrArg Prod.fst h1, congrArg Prod.snd h1⟩
      · exact Or.inr (List.mem_cons_of_mem _ h1)
    · split at h
      · rcases List.mem_cons.mp h with h1 | h1
        · exact Or.inl ⟨congrArg Prod.fst h1, congrArg Prod.snd h1⟩
        · exact Or.inr h1
      · rcases List.mem_cons.mp h with h1 | h1
        · exact Or.inr (h1 ▸ List.mem_cons_self _ _)
        · rcases ih h1 with h2 | h2
          · exact Or.inl h2
          · exact Or.inr (List.mem_cons_of_mem _ h2)

theorem self_mem_raxInsert (k0 : List Nat) (v0 : Nat) (m : RaxMap) :
    (k0, v0) ∈ raxInsert k0 v0 m := by
  induction m with
  | nil => simp [raxInsert]
  | cons a rest ih =>
    simp only [raxInsert]
    split
    · exact List.mem_cons_self _ _
    · split
      · exact List.mem_cons_self _ _
      · exact List.mem_cons_of_mem _ ih

theorem key_mem_raxInsert {k : List Nat} {v v0 : Nat} {k0 : List Nat}
    {m : RaxMap} (h : (k, v) ∈ m) :
    ∃ w, (k, w) ∈ raxInsert k0 v0 m := by
  induction m with
  | nil => simp at h
  | cons a rest ih =>
    obtain ⟨ka, va⟩ := a
    rcases List.mem_cons.mp h with h1 | h1
    · have hk : k = ka := congrArg Prod.fst h1
      subst hk
      simp only [raxInsert]
      split
      · rename_i heq
        exact ⟨v0, by simp [heq]⟩
      · split
        · exact ⟨va, List.mem_cons_of_mem _ (by
            have : (k, va) = (k, va) := rfl
            exact List.mem_cons_self _ _)⟩
        · exact ⟨va, List.mem_cons_self _ _⟩
    · simp only [raxInsert]
      split
      · exact ⟨v, List.mem_cons_of_mem _ h1⟩
      · split
        · exact ⟨v, List.mem_cons_of_mem _ (List.mem_cons_of_mem _ h1)⟩
        · obtain ⟨w, hw⟩ := ih h1
          exact ⟨w, List.mem_cons_of_mem _ hw⟩

theorem raxInsert_sorted {k0 : List Nat} {v0 : Nat} {m : RaxMap}
    (hm : RaxSorted m) : RaxSorted (raxInsert k0 v0 m) := by
  induction m with
  | nil =>
    simp only [raxInsert, RaxSorted]
    exact List.pairwise_singleton _ _
  | cons a rest ih =>
    obtain ⟨ka, va⟩ := a
    rw [RaxSorted, List.pairwise_cons] at hm
    obtain ⟨hhead, hrest⟩ := hm
    simp only [raxInsert]
    split
    · rename_i heq
      rw [RaxSorted, List.pairwise_cons]
      exact ⟨fun y hy => by rw [heq]; exact hhead y hy, hrest⟩
    · rename_i hne
      split
      · rename_i hlt
        rw [RaxSorted, List.pairwise_cons]
        constructor
        · intro y hy
          rcases List.mem_cons.mp hy with h1 | h1
          · rw [h1]; exact hlt
          · exact lexLt_trans hlt (hhead y h1)
        · rw [List.pairwise_cons]
          exact ⟨hhead, hrest⟩
      · rename_i hnlt
        rw [RaxSorted, List.pairwise_cons]
        constructor
        · intro y hy
          obtain ⟨ky, vy⟩ := y
          rcases mem_raxInsert hy with ⟨h2, _⟩ | h2
          · rcases lexLt_trichotomy k0 ka with h3 | h3 | h3
            · exact absurd h3 hnlt
            · exact absurd h3 hne
            · simpa [h2] using h3
          · exact hhead _ h2
        · exact ih hrest

theorem raxSeekGE_minimal {q : List Nat} {m : RaxMap} {v : Nat}
    (hm : RaxSorted m) (h : raxSeekGE q m = some v) :
    ∃ k, (k, v) ∈ m ∧ lexLt k q = false ∧
      ∀ k2 v2, (k2, v2) ∈ m → lexLt k2 q = false →
        k = k2 ∨ lexLt k k2 = true := by
  induction m with
  | nil => simp [raxSeekGE] at h
  | cons a rest ih =>
    obtain ⟨ka, va⟩ := a
    rw [RaxSorted, List.pairwise_cons] at hm
    obtain ⟨hhead, hrest⟩ := hm
    simp only [raxSeekGE] at h
    split at h
    · rename_i hlt
      obtain ⟨k, hk1, hk2, hk3⟩ := ih hrest h
      refine ⟨k, List.mem_cons_of_mem _ hk1, hk2, ?_⟩
      intro k2 v2 hmem hge
      rcases List.mem_cons.mp hmem with h1 | h1
      · have hk2a : k2 = ka := congrArg Prod.fst h1
        rw [hk2a] at hge; rw [hge] at hlt; cases hlt
      · exact hk3 k2 v2 h1 hge
    · rename_i hnlt
      have hv : va = v := Option.some.inj h
      have hkaq : lexLt ka q = false := by
        cases hx : lexLt ka q
        · rfl
        · exact absurd hx hnlt
      refine ⟨ka, by rw [← hv]; exact List.mem_cons_self _ _, hkaq, ?_⟩
      intro k2 v2 hmem hge
      rcases List.mem_cons.mp hmem with h1 | h1
      · exact Or.inl (congrArg Prod.fst h1).symm
      · exact Or.inr (hhead _ h1)

theorem raxSeekGE_isSome {q k0 : List Nat} {v0 : Nat} {m : RaxMap}
    (hmem : (k0, v0) ∈ m) (hk : lexLt k0 q = false) :
    ∃ v, raxSeekGE q m = some v := by
  induction m with
  | nil => simp at hmem
  | cons a rest ih =>
    obtain ⟨ka, va⟩ := a
    simp only [raxSeekGE]
    split
    · rename_i hlt
      rcases List.mem_cons.mp hmem with h1 | h1
      · have : k0 = ka := congrArg Prod.fst h1
        rw [← this] at hlt; rw [hk] at hlt; cases hlt
      · exact ih h1
    · exact ⟨va, rfl⟩

theorem mem_applySlotSpec {node : Nat} {m : RaxMap} {sp : SlotSpec}
    {k : List Nat} {v : Nat} (h : (k, v) ∈ applySlotSpec node m sp) :
    (k, v) ∈ m ∨ ∃ e ∈ specEndpoints sp, k = beBytes e ∧ v = node := by
  cases sp with
  | range a b =>
    rcases mem_raxInsert h with ⟨h1, h2⟩ | h1
    · exact Or.inr ⟨b, by simp [specEndpoints], h1, h2⟩
    · rcases mem_raxInsert h1 with ⟨h2, h3⟩ | h2
      · exact Or.inr ⟨a, by simp [specEndpoints], h2, h3⟩
      · exact Or.inl h2
  | single s =>
    rcases mem_raxInsert h with ⟨h1, h2⟩ | h1
    · exact Or.inr ⟨s, by simp [specEndpoints], h1, h2⟩
    · exact Or.inl h1
  | migrating a b => exact Or.inl h
  | importing a b => exact Or.inl h

theorem mem_applyNodeSpecs {node : Nat} {specs : List SlotSpec} {m : RaxMap}
    {k : List Nat} {v : Nat} (h : (k, v) ∈ applyNodeSpecs m node specs) :
    (k, v) ∈ m ∨ ∃ e ∈ specs.bind specEndpoints, k = beBytes e ∧ v = node := by
  induction specs generalizing m with
  | nil => exact Or.inl h
  | cons sp rest ih =>
    rw [applyNodeSpecs, List.foldl_cons] at h
    rcases ih h with h1 | ⟨e, he, h2⟩
    · rcases mem_applySlotSpec h1 with h2 | ⟨e, he, h3⟩
      · exact Or.inl h2
      · exact Or.inr ⟨e, List.mem_bind.mpr ⟨sp, List.mem_cons_self _ _, he⟩, h3⟩
    · exact Or.inr ⟨e, by
        rcases List.mem_bind.mp he with ⟨sp2, hsp2, he2⟩
        exact List.mem_bind.mpr ⟨sp2, List.mem_cons_of_mem _ hsp2, he2⟩, h2⟩

theorem mem_buildSlotsMap {topo : List (Nat × List SlotSpec)} {k : List Nat}
    {v : Nat} (h : (k, v) ∈ buildSlotsMap topo) :
    ∃ nl ∈ topo, nl.1 = v ∧ ∃ e ∈ nl.2.bind specEndpoints, k = beBytes e := by
  suffices hgen : ∀ m0 : RaxMap,
      (k, v) ∈ topo.foldl (fun m nl => applyNodeSpecs m nl.1 nl.2) m0 →
      (k, v) ∈ m0 ∨
        ∃ nl ∈ topo, nl.1 = v ∧ ∃ e ∈ nl.2.bind specEndpoints, k = beBytes e by
    rcases hgen [] h with h1 | h1
    · simp at h1
    · exact h1
  clear h
  induction topo with
  | nil => intro m0 hh; exact Or.inl hh
  | cons nl rest ih =>
    intro m0 hh
    rw [List.foldl_cons] at hh
    rcases ih (applyNodeSpecs m0 nl.1 nl.2) hh with h1 | ⟨nl2, hnl2, h2⟩
    · rcases mem_applyNodeSpecs h1 with h2 | ⟨e, he, h3, h4⟩
      · exact Or.inl h2
      · exact Or.inr ⟨nl, List.mem_cons_self _ _, h4.symm, e, he, h3⟩
    · exact Or.inr ⟨nl2, List.mem_cons_of_mem _ hnl2, h2⟩

theorem applySlotSpec_sorted {node : Nat} {m : RaxMap} {sp : SlotSpec}
    (hm : RaxSorted m) : RaxSorted (applySlotSpec node m sp) := by
  cases sp with
  | range a b => exact raxInsert_sorted (raxInsert_sorted hm)
  | single s => exact raxInsert_sorted hm
  | migrating a b => exact hm
  | importing a b => exact hm

theorem applyNodeSpecs_sorted {node : Nat} {specs : List SlotSpec}
    {m : RaxMap} (hm : RaxSorted m) : RaxSorted (applyNodeSpecs m node specs) := by
  induction specs generalizing m with
  | nil => exact hm
  | cons sp rest ih =>
    rw [applyNodeSpecs, List.foldl_cons]
    exact ih (applySlotSpec_sorted hm)

theorem buildSlotsMap_sorted (topo : List (Nat × List SlotSpec)) :
    RaxSorted (buildSlotsMap topo) := by
  suffices hgen : ∀ m0 : RaxMap, RaxSorted m0 →
      RaxSorted (topo.foldl (fun m nl => applyNodeSpecs m nl.1 nl.2) m0) from
    hgen [] (List.Pairwise.nil)
  induction topo with
  | nil => intro m0 hm; exact hm
  | cons nl rest ih =>
    intro m0 hm
    rw [List.foldl_cons]
    exact ih _ (applyNodeSpecs_sorted hm)

theorem key_mem_applySlotSpec {node : Nat} {m : RaxMap} {sp : SlotSpec}
    {k : List Nat} (h : ∃ v, (k, v) ∈ m) :
    ∃ v, (k, v) ∈ applySlotSpec node m sp := by
  obtain ⟨v, hv⟩ := h
  cases sp with
  | range a b =>
    obtain ⟨w, hw⟩ := @key_mem_raxInsert _ _ node (beBytes a) _ hv
    exact key_mem_raxInsert hw
  | single s => exact key_mem_raxInsert hv
  | migrating a b => exact ⟨v, hv⟩
  | importing a b => exact ⟨v, hv⟩

theorem key_mem_applyNodeSpecs {node : Nat} {specs : List SlotSpec}
    {m : RaxMap} {k : List Nat} (h : ∃ v, (k, v) ∈ m) :
    ∃ v, (k, v) ∈ applyNodeSpecs m node specs := by
  induction specs generalizing m with
  | nil => exact h
  | cons sp rest ih =>
    rw [applyNodeSpecs, List.foldl_cons]
    exact ih (key_mem_applySlotSpec h)

theorem endpoint_mem_applyNodeSpecs {node : Nat} {specs : List SlotSpec}
    {m : RaxMap} {e : Nat} (he : e ∈ specs.bind specEndpoints) :
    ∃ v, (beBytes e, v) ∈ applyNodeSpecs m node specs := by
  induction specs generalizing m with
  | nil => simp at he
  | cons sp rest ih =>
    rw [applyNodeSpecs, List.foldl_cons]
    rcases List.mem_bind.mp he with ⟨sp2, hsp2, he2⟩
    rcases List.mem_cons.mp hsp2 with h1 | h1
    · subst h1
      refine key_mem_applyNodeSpecs ?_
      cases sp2 with
      | range a b =>
        simp only [specEndpoints, List.mem_cons, List.mem_singleton] at he2
        rcases he2 with he2 | he2
        · subst he2
          exact key_mem_raxInsert (self_mem_raxInsert _ _ _)
        · simp only [List.not_mem_nil, or_false] at he2
          subst he2
          exact ⟨node, self_mem_raxInsert _ _ _⟩
      | single s =>
        simp only [specEndpoints, List.mem_singleton] at he2
        subst he2
        exact ⟨node, self_mem_raxInsert _ _ _⟩
      | migrating a b => simp [specEndpoints] at he2
      | importing a b => simp [specEndpoints] at he2
    · exact ih (List.mem_bind.mpr ⟨sp2, h1, he2⟩)

theorem key_mem_topoFold {post : List (Nat × List SlotSpec)} {m : RaxMap}
    {k : List Nat} (h : ∃ v, (k, v) ∈ m) :
    ∃ v, (k, v) ∈ post.foldl (fun m nl => applyNodeSpecs m nl.1 nl.2) m := by
  induction post generalizing m with
  | nil => exact h
  | cons nl rest ih =>
    rw [List.foldl_cons]
    exact ih (key_mem_applyNodeSpecs h)

theorem endpoint_mem_buildSlotsMap {topo : List (Nat × List SlotSpec)}
    {n : Nat} {specs : List SlotSpec} {e : Nat}
    (h : (n, specs) ∈ topo) (he : e ∈ specs.bind specEndpoints) :
    ∃ v, (beBytes e, v) ∈ buildSlotsMap topo := by
  obtain ⟨pre, post, rfl⟩ := List.append_of_mem h
  rw [buildSlotsMap, List.foldl_append, List.foldl_cons]
  exact key_mem_topoFold (endpoint_mem_applyNodeSpecs he)

/-- Core routing lemma for the slot map: when node `n` claims an endpoint
`e0` with `s ≤ e0 ≤ B`, all endpoints are below 16384, and every endpoint
that any line claims inside `[s, B]` belongs to `n`, then a seek at slot `s`
returns `n`. -/
theorem searchNodeBySlot_owner {topo : List (Nat × List SlotSpec)}
    {n s e0 B : Nat}
    (hbound : ∀ nl ∈ topo, ∀ e ∈ nl.2.bind specEndpoints, e < 16384)
    (hs : s < 16384)
    (hclaim : ∃ specs, (n, specs) ∈ topo ∧ e0 ∈ specs.bind specEndpoints)
    (hse : s ≤ e0) (heB : e0 ≤ B)
    (hunique : ∀ nl ∈ topo, ∀ e ∈ nl.2.bind specEndpoints,
        s ≤ e → e ≤ B → nl.1 = n) :
    searchNodeBySlot (buildSlotsMap topo) s = some n := by
  obtain ⟨specs, hmem, he0⟩ := hclaim
  have he0b : e0 < 16384 := hbound (n, specs) hmem e0 he0
  have h32 : (16384 : Nat) < 4294967296 := by norm_num
  obtain ⟨v0, hv0⟩ := endpoint_mem_buildSlotsMap hmem he0
  have hge0 : lexLt (beBytes e0) (beBytes s) = false :=
    beBytes_ge (by omega) (by omega) hse
  obtain ⟨v1, hv1⟩ := raxSeekGE_isSome hv0 hge0
  obtain ⟨k, hk1, hk2, hk3⟩ := raxSeekGE_minimal (buildSlotsMap_sorted topo) hv1
  obtain ⟨nl, hnl, hnlv, e1, he1, hke⟩ := mem_buildSlotsMap hk1
  have he1b : e1 < 16384 := hbound nl hnl e1 he1
  have hs1 : s ≤ e1 := by
    by_contra hc
    push_neg at hc
    have : lexLt (beBytes e1) (beBytes s) = true :=
      (beBytes_lt (by omega) (by omega)).mpr hc
    rw [hke] at hk2
    rw [this] at hk2
    cases hk2
  have he1B : e1 ≤ B := by
    rcases hk3 (beBytes e0) v0 hv0 hge0 with h4 | h4
    · rw [hke] at h4
      by_contra hc
      push_neg at hc
      have hlt : lexLt (beBytes e0) (beBytes e1) = true :=
        (beBytes_lt (by omega) (by omega)).mpr (by omega)
      rw [← h4] at hlt
      rw [lexLt_irrefl] at hlt
      cases hlt
    · rw [hke] at h4
      have := (beBytes_lt (by omega) (by omega)).mp h4
      omega
  have hv1n : v1 = n := by
    rw [← hnlv]
    exact hunique nl hnl e1 he1 hs1 he1B
  rw [searchNodeBySlot]
  rw [hv1, hv1n]

/-- C6: after the slots map has been built from the bootstrap node lines,
a line of node n carrying a dash range N-M makes node_of_slot return n for
every slot in [N, M] (the rax holds the big-endian endpoint keys of the
range, and a seek for the first key at or above the queried slot lands on
one of them), and a line carrying a single slot spec makes node_of_slot
return n at that slot; both statements assume the bootstrap reply is a
well-formed topology (slots below 16384, no other line claiming endpoints
inside the range). -/
theorem C6_searchNodeBySlot_range (topo : List (Nat × List SlotSpec))
    (n : Nat) (specs : List SlotSpec) (hmem : (n, specs) ∈ topo)
    (hbound : ∀ nl ∈ topo, ∀ e ∈ nl.2.bind specEndpoints, e < 16384) :
    (∀ N M, SlotSpec.range N M ∈ specs → N ≤ M →
      (∀ nl ∈ topo, nl.1 ≠ n → ∀ e ∈ nl.2.bind specEndpoints,
          e < N ∨ M < e) →
      ∀ s, N ≤ s → s ≤ M →
        searchNodeBySlot (buildSlotsMap topo) s = some n) ∧
    (∀ P, SlotSpec.single P ∈ specs →
      (∀ nl ∈ topo, nl.1 ≠ n → ∀ e ∈ nl.2.bind specEndpoints, e ≠ P) →
      searchNodeBySlot (buildSlotsMap topo) P = some n) := by
  constructor
  · intro N M hr hNM hdisj s hNs hsM
    have hM : M ∈ specs.bind specEndpoints :=
      List.mem_bind.mpr ⟨SlotSpec.range N M, hr, by simp [specEndpoints]⟩
    have hMb : M < 16384 := hbound (n, specs) hmem M hM
    refine searchNodeBySlot_owner hbound (by omega)
      ⟨specs, hmem, hM⟩ hsM (Nat.le_refl M) ?_
    intro nl hnl e he hse1 hse2
    by_contra hc
    rcases hdisj nl hnl hc e he with h1 | h1 <;> omega
  · intro P hp hdisj
    have hP : P ∈ specs.bind specEndpoints :=
      List.mem_bind.mpr ⟨SlotSpec.single P, hp, by simp [specEndpoints]⟩
    have hPb : P < 16384 := hbound (n, specs) hmem P hP
    refine searchNodeBySlot_owner hbound hPb
      ⟨specs, hmem, hP⟩ (Nat.le_refl P) (Nat.le_refl P) ?_
    intro nl hnl e he hse1 hse2
    by_contra hc
    exact hdisj nl hnl hc e he (by omega)

/-- A concrete two-line topology for the witness: node 0 claims the range
0-100, node 1 claims the single slot 200. -/
def c6Topo : List (Nat × List SlotSpec) :=
  [(0, [SlotSpec.range 0 100]), (1, [SlotSpec.single 200])]

/-- Witness: instantiating the C6 theorem on the concrete topology routes
slot 50 to node 0 through its range and slot 200 to node 1 through its
single-slot spec. -/
theorem C6_searchNodeBySlot_range_witness :
    searchNodeBySlot (buildSlotsMap c6Topo) 50 = some 0 ∧
    searchNodeBySlot (buildSlotsMap c6Topo) 200 = some 1 := by
  constructor
  · exact (C6_searchNodeBySlot_range c6Topo 0 [SlotSpec.range 0 100]
      (by decide) (by decide)).1 0 100 (by decide) (by decide) (by decide)
      50 (by decide) (by decide)
  · exact (C6_searchNodeBySlot_range c6Topo 1 [SlotSpec.single 200]
      (by decide) (by decide)).2 200 (by decide) (by decide)

/-! ## Router (proxy.c, getRequestNode) -/

/-- A command-table descriptor as the router consumes it (commands.c is not
among the given sources; the field set and meaning follow the spec and the
uses in proxy.c). -/
structure redisCommandDef where
  arity : Int
  first_key : Int
  last_key : Int
  key_step : Int
  unsupported : Bool
deriving DecidableEq, Repr

/-- Embedding of `getNodeByKey` (cluster.c lines 447-453): hash the key and
look the slot up; the slot output is written (by the caller) only when a node
was found, so both pieces are returned here. -/
def getNodeByKey (m : RaxMap) (key : List Nat) : Option Nat × Nat :=
  let slot := clusterKeyHashSlot key
  (searchNodeBySlot m slot, slot)

/-- The key walk of `getRequestNode` (proxy.c lines 1261-1278): visit index
i while i ≤ last_key, stepping by key_step; an unresolvable key breaks the
walk keeping the node accumulated so far; a key resolving to a different
node than an earlier one yields NULL with the cross-node error set (the
third component); each resolved key updates the slot. The fuel argument
makes the recursion structural and is chosen large enough never to bind. -/
def getRequestNodeWalk (m : RaxMap) (args : List (List Nat))
    (lastk stepk : Int) :
    Nat → Int → Option Nat → Int → Option Nat × Int × Bool
  | 0, _, node, slot => (node, slot, false)
  | fuel + 1, i, node, slot =>
    if i ≤ lastk then
      let r := getNodeByKey m (args.getD i.toNat [])
      match r.1 with
      | none => (node, slot, false)
      | some n =>
        match node with
        | none =>
          getRequestNodeWalk m args lastk stepk fuel (i + stepk) (some n) (r.2 : Int)
        | some n0 =>
          if n0 ≠ n then (none, (r.2 : Int), true)
          else getRequestNodeWalk m args lastk stepk fuel (i + stepk) (some n0) (r.2 : Int)
    else (node, slot, false)

/-- Embedding of `getRequestNode` (proxy.c lines 1242-1282): a single-arg
request routes to the first mapped node with the slot left undefined (-1);
a zero first_key yields no node; otherwise first_key is clamped down to
argc-1 when at or above argc, last_key is set to argc-1 when negative or at
or above argc and raised to first_key when below it, key_step is raised to
1, and the key walk runs. The result is (node, slot, cross-node-error). -/
def getRequestNode (m : RaxMap) (args : List (List Nat))
    (cmd : redisCommandDef) : Option Nat × Int × Bool :=
  if args.length = 1 then (getFirstMappedNode m, -1, false)
  else
    let argc : Int := args.length
    if cmd.first_key = 0 then (none, -1, false)
    else
      let fk := if cmd.first_key ≥ argc then argc - 1 else cmd.first_key
      let lk0 := if cmd.last_key < 0 ∨ cmd.last_key ≥ argc then argc - 1
                 else cmd.last_key
      let lk := if lk0 < fk then fk else lk0
      let st := if cmd.key_step < 1 then 1 else cmd.key_step
      getRequestNodeWalk m args lk st (args.length + 1) fk none (-1)

/-- The index sequence i, i+st, ... while ≤ lk, truncated by fuel. -/
def claimClampIndicesGo (lk st : Int) : Nat → Int → List Int
  | 0, _ => []
  | fuel + 1, i =>
    if i ≤ lk then i :: claimClampIndicesGo lk st fuel (i + st) else []

/-- The examined key positions exactly as the claim words them: first_key
clamped INTO [0, argc-1], last_key clamped INTO [first_key, argc-1] (so a
negative last_key becomes first_key), key_step at least 1, then walking from
first_key by key_step up to last_key. -/
def claimExaminedIndices (argc : Int) (cmd : redisCommandDef) : List Int :=
  let fk := max 0 (min cmd.first_key (argc - 1))
  let lk := max fk (min cmd.last_key (argc - 1))
  let st := max cmd.key_step 1
  claimClampIndicesGo lk st (argc.toNat + 1) fk

/-- Routing as the claim describes it over the claim's examined positions:
when all examined keys map to one node, assign that node. -/
def claimRoute (m : RaxMap) (args : List (List Nat))
    (cmd : redisCommandDef) : Option Nat :=
  match (claimExaminedIndices args.length cmd).map
      (fun i => (getNodeByKey m (args.getD i.toNat [])).1) with
  | [] => none
  | n0 :: rest => if n0 ≠ none ∧ rest.all (· = n0) then n0 else none

/-- The examined key positions as the code actually clamps them: first_key
clamped down to argc-1 when at or above argc; last_key replaced by argc-1
when negative or at or above argc, then raised to first_key; key_step raised
to 1. -/
def amendedExaminedIndices (argc : Int) (cmd : redisCommandDef) : List Int :=
  let fk := if cmd.first_key ≥ argc then argc - 1 else cmd.first_key
  let lk0 := if cmd.last_key < 0 ∨ cmd.last_key ≥ argc then argc - 1
             else cmd.last_key
  let lk := if lk0 < fk then fk else lk0
  let st := if cmd.key_step < 1 then 1 else cmd.key_step
  claimClampIndicesGo lk st (argc.toNat + 1) fk

/-- The walk expressed as a fold over the list of visited indices. -/
def walkFold (m : RaxMap) (args : List (List Nat)) :
    List Int → Option Nat → Int → Option Nat × Int × Bool
  | [], node, slot => (node, slot, false)
  | i :: rest, node, slot =>
    let r := getNodeByKey m (args.getD i.toNat [])
    match r.1 with
    | none => (node, slot, false)
    | some n =>
      match node with
      | none => walkFold m args rest (some n) (r.2 : Int)
      | some n0 =>
        if n0 ≠ n then (none, (r.2 : Int), true)
        else walkFold m args rest (some n0) (r.2 : Int)

/-- The descriptor of mget: arity -2, keys from position 1 through the final
argument (last_key = -1), step 1, supported. Modelled from the spec: the
command table (commands.c) is not among the given sources. -/
def cmdMget : redisCommandDef := ⟨-2, 1, -1, 1, false⟩

/-- The slots map of a two-node cluster: node 0 owns 0-8191, node 1 owns
8192-16383. -/
def c7Map : RaxMap :=
  buildSlotsMap [(0, [SlotSpec.range 0 8191]), (1, [SlotSpec.range 8192 16383])]

/-- The argument vector of the request "MGET foo bar" (lowercased command
name as the lookup uses it): slot(foo) = 12182 (node 1), slot(bar) = 5061
(node 0). -/
def c7Args : List (List Nat) :=
  [[109, 103, 101, 116], [102, 111, 111], [98, 97, 114]]

/-- C7 counterexample: for mget (last_key = -1) over three arguments, the
code walks positions 1 and 2 (a negative last_key becomes argc-1 = 2), sees
the two keys on different nodes and rejects with the cross-node error, while
the claim's literal clamp of last_key into [first_key, argc-1] turns -1 into
first_key = 1, examines only position 1 and assigns that node: the claim's
examined set and routing outcome differ from the code's. -/
theorem C7_claim_clamp_mismatch :
    (getRequestNode c7Map c7Args cmdMget).1 = none ∧
    (getRequestNode c7Map c7Args cmdMget).2.2 = true ∧
    claimRoute c7Map c7Args cmdMget = some 1 ∧
    claimExaminedIndices c7Args.length cmdMget = [1] ∧
    amendedExaminedIndices c7Args.length cmdMget = [1, 2] := by
  decide

theorem getRequestNodeWalk_eq_walkFold (m : RaxMap) (args : List (List Nat))
    (lastk stepk : Int) (fuel : Nat) :
    ∀ (i : Int) (node : Option Nat) (slot : Int),
      getRequestNodeWalk m args lastk stepk fuel i node slot =
        walkFold m args (claimClampIndicesGo lastk stepk fuel i) node slot := by
  induction fuel with
  | zero => intro i node slot; rfl
  | succ fuel ih =>
    intro i node slot
    simp only [getRequestNodeWalk, claimClampIndicesGo]
    by_cases hi : i ≤ lastk
    · rw [if_pos hi, if_pos hi]
      simp only [walkFold]
      cases hr : (getNodeByKey m (args.getD i.toNat [])).1 with
      | none => rfl
      | some n =>
        cases node with
        | none => exact ih (i + stepk) (some n) _
        | some n0 =>
          by_cases hn : n0 ≠ n
          · simp only [hn, if_true, ite_true, if_pos hn]
          · push_neg at hn
            subst hn
            simp only [ne_eq, not_true_eq_false, if_false, ite_false,
              if_neg (by simp : ¬ n0 ≠ n0)]
            exact ih (i + stepk) (some n0) _
    · rw [if_neg hi, if_neg hi]
      rfl

theorem getRequestNode_eq_walkFold (m : RaxMap) (args : List (List Nat))
    (cmd : redisCommandDef) (hargc : 2 ≤ args.length)
    (hfk : 1 ≤ cmd.first_key) :
    getRequestNode m args cmd =
      walkFold m args (amendedExaminedIndices args.length cmd) none (-1) := by
  rw [getRequestNode, amendedExaminedIndices]
  rw [if_neg (by omega)]
  rw [if_neg (by omega)]
  rw [getRequestNodeWalk_eq_walkFold]
  have htn : ((args.length : Int)).toNat = args.length := Int.toNat_ofNat _
  rw [htn]

theorem walkFold_all_eq (m : RaxMap) (args : List (List Nat)) :
    ∀ (idxs : List Int) (n0 : Nat) (slot : Int),
      (∀ i ∈ idxs, (getNodeByKey m (args.getD i.toNat [])).1 = some n0) →
      walkFold m args idxs (some n0) slot =
        (some n0,
         (match idxs.getLast? with
          | none => slot
          | some j => ((getNodeByKey m (args.getD j.toNat [])).2 : Int)),
         false) := by
  intro idxs
  induction idxs with
  | nil => intro n0 slot _; rfl
  | cons i rest ih =>
    intro n0 slot hall
    have hi : (getNodeByKey m (args.getD i.toNat [])).1 = some n0 :=
      hall i (List.mem_cons_self _ _)
    simp only [walkFold, hi, if_neg (by simp : ¬ n0 ≠ n0)]
    cases rest with
    | nil => rfl
    | cons j rest2 =>
      rw [ih n0 _ (fun x hx => hall x (List.mem_cons_of_mem _ hx))]
      rfl

theorem walkFold_mismatch_from (m : RaxMap) (args : List (List Nat)) :
    ∀ (idxs : List Int) (n0 : Nat) (slot : Int),
      (∀ i ∈ idxs, (getNodeByKey m (args.getD i.toNat [])).1 ≠ none) →
      (∃ i ∈ idxs, (getNodeByKey m (args.getD i.toNat [])).1 ≠ some n0) →
      (walkFold m args idxs (some n0) slot).1 = none ∧
      (walkFold m args idxs (some n0) slot).2.2 = true := by
  intro idxs
  induction idxs with
  | nil => intro n0 slot _ hdiff; simp at hdiff
  | cons i rest ih =>
    intro n0 slot hres hdiff
    cases hr : (getNodeByKey m (args.getD i.toNat [])).1 with
    | none => exact absurd hr (hres i (List.mem_cons_self _ _))
    | some n =>
      simp only [walkFold, hr]
      by_cases hn : n0 ≠ n
      · rw [if_pos hn]
        exact ⟨rfl, rfl⟩
      · rw [if_neg hn]
        push_neg at hn
        subst hn
        refine ih n0 _ (fun x hx => hres x (List.mem_cons_of_mem _ hx)) ?_
        obtain ⟨j, hj, hjne⟩ := hdiff
        rcases List.mem_cons.mp hj with h1 | h1
        · rw [h1] at hjne
          exact absurd hr hjne
        · exact ⟨j, h1, hjne⟩

/-- C7 (amended): for a parsed request with argc ≥ 2 and a descriptor with
first_key ≥ 1 (the router rejects first_key = 0 upstream), the router
examines exactly the positions obtained by clamping first_key down to
argc-1, replacing last_key by argc-1 when negative or at or above argc and
raising it to first_key when below it, taking key_step = max(key_step, 1),
and walking from first_key by key_step up to last_key; when all examined
keys map to one node the router assigns that node together with the slot of
the last examined key and no cross-node error. (The original claim's clamp
of last_key into [first_key, argc-1] fails for negative last_key, see the
counterexample.) -/
theorem C7_router_clamps_amended (m : RaxMap) (args : List (List Nat))
    (cmd : redisCommandDef) (n : Nat) (j : Int)
    (hargc : 2 ≤ args.length) (hfk : 1 ≤ cmd.first_key)
    (hlast : (amendedExaminedIndices args.length cmd).getLast? = some j)
    (hall : ∀ i ∈ amendedExaminedIndices args.length cmd,
        (getNodeByKey m (args.getD i.toNat [])).1 = some n) :
    getRequestNode m args cmd =
      (some n, ((getNodeByKey m (args.getD j.toNat [])).2 : Int), false) := by
  rw [getRequestNode_eq_walkFold m args cmd hargc hfk]
  cases hidx : amendedExaminedIndices args.length cmd with
  | nil => rw [hidx] at hlast; cases hlast
  | cons i rest =>
    rw [hidx] at hall hlast
    have hi : (getNodeByKey m (args.getD i.toNat [])).1 = some n :=
      hall i (List.mem_cons_self _ _)
    simp only [walkFold, hi]
    cases rest with
    | nil =>
      have hj : i = j := by
        simp only [List.getLast?_singleton] at hlast
        exact Option.some.inj hlast
      rw [hj]
      rfl
    | cons i2 rest2 =>
      rw [walkFold_all_eq m args (i2 :: rest2) n _
        (fun x hx => hall x (List.mem_cons_of_mem _ hx))]
      have hl2 : (i2 :: rest2).getLast? = some j := by
        rw [List.getLast?_cons_cons] at hlast
        cases rest2 with
        | nil => simpa using hlast
        | cons a b => simpa using hlast
      rw [hl2]

/-- A three-node view used by the C7 witness: descriptor with first_key 1,
last_key -1, step 1; all keys on the same node. -/
def c7ArgsSame : List (List Nat) :=
  [[103, 101, 116], [123, 120, 125, 97, 98, 99], [123, 120, 125, 100, 101, 102]]

/-- Witness: the amended C7 theorem at the concrete request
"GET {x}abc {x}def" over the two-node map: both keys hash to slot 16287
(node 1), the code examines positions 1 and 2 and assigns node 1 with the
slot of the last examined key. -/
theorem C7_router_clamps_amended_witness :
    getRequestNode c7Map c7ArgsSame cmdMget =
      (some 1, ((getNodeByKey c7Map (c7ArgsSame.getD (2 : Int).toNat [])).2 : Int),
       false) :=
  C7_router_clamps_amended c7Map c7ArgsSame cmdMget 1 2
    (by decide) (by decide) (by decide) (by decide)

/-! ## Request processing (proxy.c, processRequest) -/

/-- The three parse statuses of proxy.c: PARSE_STATUS_INCOMPLETE (-1),
PARSE_STATUS_ERROR (0), PARSE_STATUS_OK (1). -/
inductive PStatus where
  | incomplete
  | error
  | ok
deriving DecidableEq, Repr

/-- The outcome of processRequest for one request: parseFailed is the
return-0 path on PARSE_STATUS_ERROR (the caller then frees the whole
client); incomplete returns leaving the request parsing; rejected frees the
request and appends the error reply to the client buffer; enqueued appends
the request to the requests_to_send list of its connection pool. -/
inductive ProcResult where
  | parseFailed
  | incomplete
  | rejected (msg : String)
  | rejectedUnsupported (name : List Nat)
  | enqueued (node : Nat) (slot : Int)
deriving DecidableEq, Repr

def errInvalidRequest : String := "Invalid request"

def errMultiCommands : String := "Multi-command requests are not currently supported"

def errCrossNode : String :=
  "Queries with keys belonging to different nodes are not supported"

def errNoNode : String := "Failed to get node for query"

/-- sdstolower on one byte. -/
def sdstolowerByte (b : Nat) : Nat :=
  if 65 ≤ b ∧ b ≤ 90 then b + 32 else b

/-- Embedding of `getRequestCommand` (proxy.c lines 1230-1240): the first
argument, lowercased; NULL when there are no arguments. -/
def getRequestCommand (args : List (List Nat)) : Option (List Nat) :=
  args.head?.map (fun a => a.map sdstolowerByte)

/-- Lookup in the commands dict by exact (lowercased) name. -/
def lookupCommand (table : List (List Nat × redisCommandDef))
    (name : List Nat) : Option redisCommandDef :=
  (table.find? (fun kv => decide (kv.1 = name))).map (·.2)

/-- Embedding of the routing part of `processRequest` (proxy.c lines
1514-1587) after the parse step produced `pstatus`: PARSE_STATUS_ERROR
returns failure (the caller frees the client); incomplete returns; zero
arguments reject with Invalid request; more than one command rejects;
unknown, flagged-unsupported or keyless (arity != 1 and first_key == 0)
descriptors reject with the Unsupported-command error; then the router
runs: no node with the cross-node flag rejects with the cross-node error,
no node otherwise rejects with Failed to get node for query, and a resolved
node enqueues the request. -/
def processRequest (table : List (List Nat × redisCommandDef)) (m : RaxMap)
    (pstatus : PStatus) (args : List (List Nat)) (numCommands : Nat) :
    ProcResult :=
  match pstatus with
  | .error => .parseFailed
  | .incomplete => .incomplete
  | .ok =>
    if args.length = 0 then .rejected errInvalidRequest
    else if numCommands > 1 then .rejected errMultiCommands
    else
      match getRequestCommand args with
      | none => .rejected errInvalidRequest
      | some name =>
        match lookupCommand table name with
        | none => .rejectedUnsupported name
        | some cmd =>
          if cmd.unsupported ∨ (cmd.arity ≠ 1 ∧ cmd.first_key = 0) then
            .rejectedUnsupported name
          else
            match getRequestNode m args cmd with
            | (none, _, xerr) =>
              if xerr then .rejected errCrossNode else .rejected errNoNode
            | (some nd, slot, _) => .enqueued nd slot

/-- The effect of processRequest on the requests_to_send list of the chosen
connection pool: only the enqueued outcome appends the request (proxy.c line
1562 runs after every rejection path has already returned). -/
def processRequestQueue (res : ProcResult) (toSend : List Nat)
    (reqId : Nat) : List Nat :=
  match res with
  | .enqueued _ _ => toSend ++ [reqId]
  | _ => toSend

theorem getRequestNode_cross (m : RaxMap) (args : List (List Nat))
    (cmd : redisCommandDef) (hargc : 2 ≤ args.length)
    (hfk : 1 ≤ cmd.first_key)
    (hres : ∀ i ∈ amendedExaminedIndices args.length cmd,
        (getNodeByKey m (args.getD i.toNat [])).1 ≠ none)
    (hdiff : ∃ i ∈ amendedExaminedIndices args.length cmd,
        ∃ k ∈ amendedExaminedIndices args.length cmd,
          (getNodeByKey m (args.getD i.toNat [])).1 ≠
            (getNodeByKey m (args.getD k.toNat [])).1) :
    (getRequestNode m args cmd).1 = none ∧
    (getRequestNode m args cmd).2.2 = true := by
  rw [getRequestNode_eq_walkFold m args cmd hargc hfk]
  cases hidx : amendedExaminedIndices args.length cmd with
  | nil => rw [hidx] at hdiff; simp at hdiff
  | cons i rest =>
    rw [hidx] at hres hdiff
    cases hr : (getNodeByKey m (args.getD i.toNat [])).1 with
    | none => exact absurd hr (hres i (List.mem_cons_self _ _))
    | some n0 =>
      simp only [walkFold, hr, if_neg (by simp : ¬ n0 ≠ n0)]
      refine walkFold_mismatch_from m args rest n0 _
        (fun x hx => hres x (List.mem_cons_of_mem _ hx)) ?_
      by_contra hc
      push_neg at hc
      obtain ⟨a, ha, b, hb, hab⟩ := hdiff
      have hval : ∀ x ∈ i :: rest,
          (getNodeByKey m (args.getD x.toNat [])).1 = some n0 := by
        intro x hx
        rcases List.mem_cons.mp hx with h1 | h1
        · rw [h1]; exact hr
        · exact hc x h1
      rw [hval a ha, hval b hb] at hab
      exact hab rfl

/-- C4: a routed request whose examined keys all resolve but touch more than
one node is answered with exactly the single-line error reply text
"Queries with keys belonging to different nodes are not supported", the
request is freed (the rejected outcome is the free-then-reply path of
processRequest), and the request is never appended to any requests_to_send
list, so no back-end I/O happens for it. -/
theorem C4_cross_node_rejected (table : List (List Nat × redisCommandDef))
    (m : RaxMap) (args : List (List Nat)) (name : List Nat)
    (cmd : redisCommandDef)
    (hargc : 2 ≤ args.length)
    (hname : getRequestCommand args = some name)
    (hlookup : lookupCommand table name = some cmd)
    (hsupp : ¬(cmd.unsupported ∨ (cmd.arity ≠ 1 ∧ cmd.first_key = 0)))
    (hfk : 1 ≤ cmd.first_key)
    (hres : ∀ i ∈ amendedExaminedIndices args.length cmd,
        (getNodeByKey m (args.getD i.toNat [])).1 ≠ none)
    (hdiff : ∃ i ∈ amendedExaminedIndices args.length cmd,
        ∃ k ∈ amendedExaminedIndices args.length cmd,
          (getNodeByKey m (args.getD i.toNat [])).1 ≠
            (getNodeByKey m (args.getD k.toNat [])).1) :
    processRequest table m .ok args 1 = .rejected errCrossNode ∧
    ∀ toSend reqId,
      processRequestQueue (processRequest table m .ok args 1) toSend reqId =
        toSend := by
  obtain ⟨hnode, hxerr⟩ := getRequestNode_cross m args cmd hargc hfk hres hdiff
  have hmain : processRequest table m .ok args 1 = .rejected errCrossNode := by
    simp only [processRequest]
    rw [if_neg (by omega), if_neg (by omega), hname]
    simp only [hlookup]
    rw [if_neg hsupp]
    cases hget : getRequestNode m args cmd with
    | mk node rest =>
      cases node with
      | none =>
        obtain ⟨slot, xerr⟩ := rest
        have : xerr = true := by
          rw [hget] at hxerr
          exact hxerr
        rw [this]
        rfl
      | some nd =>
        rw [hget] at hnode
        cases hnode
  refine ⟨hmain, fun toSend reqId => ?_⟩
  rw [hmain]
  rfl

/-- The concrete command table holding only mget. -/
def c4Table : List (List Nat × redisCommandDef) :=
  [([109, 103, 101, 116], cmdMget)]

/-- Witness: C4 applied to "MGET foo bar" over the two-node map: foo is on
node 1, bar on node 0, and the request is rejected with the cross-node error
without touching the send queue. -/
theorem C4_cross_node_rejected_witness :
    processRequest c4Table c7Map PStatus.ok c7Args 1 = ProcResult.rejected errCrossNode ∧
    ∀ toSend reqId,
      processRequestQueue
          (processRequest c4Table c7Map PStatus.ok c7Args 1) toSend reqId =
        toSend :=
  C4_cross_node_rejected c4Table c7Map c7Args [109, 103, 101, 116] cmdMget
    (by decide) (by decide) (by decide) (by decide) (by decide) (by decide)
    (by decide)

/-! ## Request parser (proxy.c, parseRequest) -/

/-- The fields of clientRequest that parseRequest reads and writes.
REQ_STATUS_UNKNOWN (-1) sentinels become `none`: is_multibulk is unknown
until the first byte is seen, pending_bulks and current_bulk_length are
unknown until their count lines parse (atoll/atoi clamp negatives to zero,
so known values are naturals). -/
structure ParseReq where
  buffer : List Nat
  query_offset : Nat
  is_multibulk : Option Bool
  argc : Nat
  num_commands : Nat
  pending_bulks : Option Nat
  current_bulk_length : Option Nat
  offsets : List Nat
  lengths : List Nat
  parsing_status : PStatus
deriving DecidableEq, Repr

/-- The byte at an index; reading one past the end yields the sds NUL
terminator, i.e. 0. -/
def byteAt (buf : List Nat) (i : Nat) : Nat :=
  buf.getD i 0

/-- strchr over the remaining bytes: the relative index of the first
occurrence of `c`, stopping (like C strchr) at the first NUL byte. -/
def scanFor (c : Nat) : List Nat → Option Nat
  | [] => none
  | b :: rest =>
    if b = c then some 0
    else if b = 0 then none
    else (scanFor c rest).map (· + 1)

def asciiDigit (b : Nat) : Option Nat :=
  if 48 ≤ b ∧ b ≤ 57 then some (b - 48) else none

def atoiDigitsAcc : List Nat → Nat → Nat
  | [], acc => acc
  | b :: rest, acc =>
    match asciiDigit b with
    | some d => atoiDigitsAcc rest (acc * 10 + d)
    | none => acc

/-- C atoi/atoll on the bytes of a count line: skip leading whitespace, an
optional sign, then decimal digits up to the first non-digit. -/
def atoiBytes (l : List Nat) : Int :=
  let l1 := l.dropWhile (fun b => decide (b = 32) || decide (9 ≤ b ∧ b ≤ 13))
  if l1.headD 0 = 43 then (atoiDigitsAcc l1.tail 0 : Int)
  else if l1.headD 0 = 45 then -(atoiDigitsAcc l1.tail 0 : Int)
  else (atoiDigitsAcc l1 0 : Int)

/-- pending_bulks <= 0 as the cleanup block tests it: the stored C value is
-1 when unknown, so unknown passes the test. -/
def pbLE0 : Option Nat → Bool
  | none => true
  | some v => v = 0

/-- Exit of the inner bulk loop: halt is a goto cleanup carrying the status,
done means the loop counter was exhausted. -/
inductive ArgsOut where
  | halt (st : ParseReq) (status : PStatus)
  | done (st : ParseReq)
deriving DecidableEq, Repr

/-- The inner `for (i = 0; i < lc; i++)` of parseRequest (proxy.c lines
1127-1188), one iteration per remaining count: read the $-length line when
the current bulk length is unknown ('$' missing is the fatal framing error),
then capture the argument bytes when the length is positive (checking the
closing CR), recording the zero-copy offset/length pair, decrementing
pending_bulks and resetting the bulk length. -/
def parseArgs : Nat → ParseReq → ArgsOut
  | 0, st => .done st
  | count + 1, st =>
    let step1 : Sum (ParseReq × PStatus) (ParseReq × Nat) :=
      match st.current_bulk_length with
      | some arglen => Sum.inr (st, arglen)
      | none =>
        if byteAt st.buffer st.query_offset ≠ 36 then
          Sum.inl (st, .error)
        else if st.query_offset + 1 ≥ st.buffer.length then
          Sum.inl (st, .incomplete)
        else
          match scanFor 13 (st.buffer.drop (st.query_offset + 1)) with
          | none => Sum.inl (st, .incomplete)
          | some len =>
            let line := (st.buffer.drop (st.query_offset + 1)).take len
            let arglenI := atoiBytes line
            let arglen := if arglenI < 0 then 0 else arglenI.toNat
            let st := { st with current_bulk_length := some arglen,
                                query_offset := st.query_offset + len + 3 }
            if st.query_offset ≥ st.buffer.length then
              Sum.inl (st, .incomplete)
            else Sum.inr (st, arglen)
    match step1 with
    | Sum.inl (st, status) => .halt st status
    | Sum.inr (st, arglen) =>
      if arglen > 0 then
        match scanFor 13 (st.buffer.drop st.query_offset) with
        | none => .halt st .incomplete
        | some _ =>
          let endarg := st.query_offset + arglen
          if endarg ≥ st.buffer.length ∨ byteAt st.buffer endarg ≠ 13 then
            .halt st .incomplete
          else
            parseArgs count
              { st with
                offsets := st.offsets ++ [st.query_offset],
                lengths := st.lengths ++ [arglen],
                argc := st.argc + 1,
                pending_bulks := st.pending_bulks.map (· - 1),
                current_bulk_length := none,
                query_offset := endarg + 2 }
      else parseArgs count st

/-- Exit of the outer multibulk while loop: halt is a goto cleanup,
finished is the natural loop exit (offset at end of buffer), split is the
break after splitting a pipelined extra command out, spin marks fuel
exhaustion (inputs on which the C loop never terminates). -/
inductive LoopOut where
  | halt (st : ParseReq) (status : PStatus)
  | finished (st : ParseReq)
  | split (st : ParseReq) (rest : List Nat)
  | spin
deriving DecidableEq, Repr

/-- The outer multibulk loop of parseRequest (proxy.c lines 1072-1189): at a
'*' either split (when a command was already seen: truncate the buffer at
the current offset, hand the remainder to a new request, set num_commands
to 1 and pending_bulks to 0) or consume the header; halt incomplete when
the buffer is exhausted mid-header; read the bulk count line when unknown;
then run the bulk loop over the current count and iterate. -/
def parseLoop : Nat → ParseReq → LoopOut
  | 0, _ => .spin
  | fuel + 1, st =>
    if st.query_offset ≥ st.buffer.length then .finished st
    else
      let stepA : Sum (ParseReq × List Nat) ParseReq :=
        if byteAt st.buffer st.query_offset = 42 then
          if st.num_commands > 0 then
            let rest := st.buffer.drop st.query_offset
            let newbuf := st.buffer.take st.query_offset
            Sum.inl ({ st with buffer := newbuf, num_commands := 1,
                               pending_bulks := some 0 }, rest)
          else
            Sum.inr { st with num_commands := st.num_commands + 1,
                              query_offset := st.query_offset + 1,
                              pending_bulks := none,
                              current_bulk_length := none }
        else Sum.inr st
      match stepA with
      | Sum.inl (st, rest) => .split st rest
      | Sum.inr st =>
        if st.query_offset ≥ st.buffer.length then .halt st .incomplete
        else
          let stepC : Sum (ParseReq × PStatus) (ParseReq × Nat) :=
            match st.pending_bulks with
            | some lc => Sum.inr (st, lc)
            | none =>
              match scanFor 13 (st.buffer.drop st.query_offset) with
              | none => Sum.inl (st, .incomplete)
              | some len =>
                let line := (st.buffer.drop st.query_offset).take len
                let lcI := atoiBytes line
                let lc := if lcI < 0 then 0 else lcI.toNat
                let st := { st with query_offset := st.query_offset + len + 2,
                                    pending_bulks := some lc }
                if st.query_offset ≥ st.buffer.length then
                  Sum.inl (st, .incomplete)
                else Sum.inr (st, lc)
          match stepC with
          | Sum.inl (st, status) => .halt st status
          | Sum.inr (st, lc) =>
            match parseArgs lc st with
            | .halt st status => .halt st status
            | .done st => parseLoop fuel st

/-- The inline argument loop (proxy.c lines 1203-1215): split the line on
single spaces (strchr may even land past the line end, exactly as the C
does), recording zero-copy offsets. pAbs and nlAbs are the absolute
positions of the cursor and the line end. -/
def parseInlineArgs : Nat → ParseReq → Nat → Nat → ParseReq
  | 0, st, _, _ => st
  | fuel + 1, st, pAbs, nlAbs =>
    if nlAbs ≤ pAbs then st
    else
      let sep := match scanFor 32 (st.buffer.drop pAbs) with
        | none => nlAbs
        | some rel => pAbs + rel
      let st := { st with offsets := st.offsets ++ [pAbs],
                          lengths := st.lengths ++ [sep - pAbs],
                          argc := st.argc + 1 }
      parseInlineArgs fuel st (sep + 1) nlAbs

/-- The inline branch of parseRequest (proxy.c lines 1190-1216): find the
newline (incomplete when absent), back off over a preceding CR, split the
line into arguments, status OK. Returns the request and the status handed
to the cleanup block. -/
def parseInline (st : ParseReq) : ParseReq × PStatus :=
  match scanFor 10 (st.buffer.drop st.query_offset) with
  | none => (st, .incomplete)
  | some r =>
    let nlAbs0 := st.query_offset + r
    let nlAbs := if nlAbs0 ≠ st.query_offset ∧ byteAt st.buffer (nlAbs0 - 1) = 13
                 then nlAbs0 - 1 else nlAbs0
    let qrylen := nlAbs - st.query_offset
    (parseInlineArgs (qrylen + 1) st st.query_offset nlAbs, .ok)

/-- The cleanup block of parseRequest (proxy.c lines 1218-1227): clamp the
offset to the buffer length; an incomplete multibulk whose pending count is
at most zero with no bytes remaining is promoted to OK. -/
def parseCleanup (st : ParseReq) (status : PStatus) : ParseReq :=
  let st := if st.query_offset > st.buffer.length
            then { st with query_offset := st.buffer.length } else st
  let remaining := st.buffer.length - st.query_offset
  let status :=
    if status = PStatus.incomplete ∧ st.is_multibulk = some true ∧
        pbLE0 st.pending_bulks = true ∧ remaining = 0
    then PStatus.ok else status
  { st with parsing_status := status }

/-- The result of one parseRequest call: the (updated) request and, when a
pipelined extra command was split out, the bytes handed to the new request
object appended to the client requests_to_process list. -/
structure ParseResult where
  req : ParseReq
  split : Option (List Nat)
deriving DecidableEq, Repr

/-- Embedding of `parseRequest` (proxy.c lines 1056-1228): return early
unless still parsing; fix the request type from the first byte; run the
multibulk loop or the inline branch; apply the cleanup block. `none` marks
the inputs on which the C while loop never terminates. -/
def parseRequest (st : ParseReq) : Option ParseResult :=
  if st.parsing_status ≠ PStatus.incomplete then some ⟨st, none⟩
  else
    let mb := some (decide (byteAt st.buffer st.query_offset = 42))
    let st := match st.is_multibulk with
      | none => { st with is_multibulk := mb }
      | some _ => st
    if st.is_multibulk = some true then
      match parseLoop (st.buffer.length + 2) st with
      | .spin => none
      | .halt st2 status => some ⟨parseCleanup st2 status, none⟩
      | .finished st2 => some ⟨parseCleanup st2 PStatus.incomplete, none⟩
      | .split st2 rest => some ⟨parseCleanup st2 PStatus.incomplete, some rest⟩
    else
      match parseInline st with
      | (st2, status) => some ⟨parseCleanup st2 status, none⟩

/-- A fresh request as createRequest builds it (proxy.c lines 1322-1354)
holding the given buffer. -/
def initParseReq (buf : List Nat) : ParseReq :=
  { buffer := buf, query_offset := 0, is_multibulk := none, argc := 0,
    num_commands := 0, pending_bulks := none, current_bulk_length := none,
    offsets := [], lengths := [], parsing_status := PStatus.incomplete }

/-- The requests_to_process drain of readQuery at the parse level (proxy.c
lines 1622-1635): parse the current request; while a split produced a new
request, parse that one too. Each returned entry is one request object; the
split component of entry i is the buffer of entry i+1, mirroring the
prev_request/next_request links the split creates. -/
def splitAll : Nat → List Nat → List ParseResult
  | 0, _ => []
  | fuel + 1, buf =>
    match parseRequest (initParseReq buf) with
    | none => []
    | some res =>
      match res.split with
      | none => [res]
      | some rest => res :: splitAll fuel rest

/-- Canonical decimal digits of a natural number, as sds formatting writes
them. -/
def natDigits (n : Nat) : List Nat :=
  if h : n < 10 then [48 + n]
  else natDigits (n / 10) ++ [48 + n % 10]
decreasing_by exact Nat.div_lt_self (by omega) (by omega)

/-- The wire encoding of one bulk argument. -/
def encBulk (a : List Nat) : List Nat :=
  36 :: natDigits a.length ++ [13, 10] ++ a ++ [13, 10]

/-- The wire encoding of one multibulk command. -/
def encCmd (args : List (List Nat)) : List Nat :=
  42 :: natDigits args.length ++ [13, 10] ++ (args.map encBulk).join

/-- The wire encoding of a pipeline of commands. -/
def encCmds (cs : List (List (List Nat))) : List Nat :=
  (cs.map encCmd).join

/-- A well-formed argument: non-empty and free of NUL bytes (C strchr stops
at NUL, so a NUL inside an argument stalls the parser forever). -/
def WFArg (a : List Nat) : Prop := a ≠ [] ∧ 0 ∉ a

/-- A well-formed command: at least one argument, all well-formed. -/
def WFCmd (args : List (List Nat)) : Prop := args ≠ [] ∧ ∀ a ∈ args, WFArg a

instance : DecidablePred WFArg := fun a => by
  unfold WFArg; infer_instance

instance : DecidablePred WFCmd := fun args => by
  unfold WFCmd; infer_instance

theorem natDigits_digits (n : Nat) : ∀ b ∈ natDigits n, 48 ≤ b ∧ b ≤ 57 := by
  induction n using Nat.strong_induction_on with
  | _ n ih =>
    by_cases h : n < 10
    · rw [natDigits, dif_pos h]
      intro b hb
      simp only [List.mem_singleton] at hb
      omega
    · rw [natDigits, dif_neg h]
      intro b hb
      rcases List.mem_append.mp hb with h1 | h1
      · exact ih (n / 10) (Nat.div_lt_self (by omega) (by omega)) b h1
      · simp only [List.mem_singleton] at h1
        have : n % 10 < 10 := Nat.mod_lt _ (by omega)
        omega

theorem natDigits_ne_nil (n : Nat) : natDigits n ≠ [] := by
  by_cases h : n < 10
  · rw [natDigits, dif_pos h]; simp
  · rw [natDigits, dif_neg h]; simp

theorem atoiDigitsAcc_single {d acc : Nat} (h : d < 10) :
    atoiDigitsAcc [48 + d] acc = acc * 10 + d := by
  simp only [atoiDigitsAcc, asciiDigit]
  rw [if_pos (by omega)]
  simp only [atoiDigitsAcc]
  omega

theorem atoiDigitsAcc_append {l1 l2 : List Nat} (acc : Nat)
    (h : ∀ b ∈ l1, 48 ≤ b ∧ b ≤ 57) :
    atoiDigitsAcc (l1 ++ l2) acc = atoiDigitsAcc l2 (atoiDigitsAcc l1 acc) := by
  induction l1 generalizing acc with
  | nil => rfl
  | cons b rest ih =>
    have hb := h b (List.mem_cons_self _ _)
    simp only [List.cons_append, atoiDigitsAcc, asciiDigit, if_pos hb]
    exact ih _ (fun x hx => h x (List.mem_cons_of_mem _ hx))

theorem atoiDigitsAcc_natDigits (n : Nat) :
    ∀ acc, atoiDigitsAcc (natDigits n) acc =
      acc * 10 ^ (natDigits n).length + n := by
  induction n using Nat.strong_induction_on with
  | _ n ih =>
    intro acc
    by_cases h : n < 10
    · rw [natDigits, dif_pos h]
      rw [atoiDigitsAcc_single h]
      simp
    · rw [natDigits, dif_neg h]
      rw [atoiDigitsAcc_append acc (natDigits_digits (n / 10))]
      rw [ih (n / 10) (Nat.div_lt_self (by omega) (by omega)) acc]
      rw [atoiDigitsAcc_single (Nat.mod_lt _ (by omega))]
      rw [List.length_append, List.length_singleton, pow_succ]
      have hdm := Nat.div_add_mod n 10
      set L := 10 ^ (natDigits (n / 10)).length
      calc (acc * L + n / 10) * 10 + n % 10
          = acc * (L * 10) + (n / 10 * 10 + n % 10) := by ring
        _ = acc * (L * 10) + n := by omega

theorem atoiBytes_natDigits (n : Nat) : atoiBytes (natDigits n) = (n : Int) := by
  cases hd : natDigits n with
  | nil => exact absurd hd (natDigits_ne_nil n)
  | cons b rest =>
    have hb : 48 ≤ b ∧ b ≤ 57 := by
      refine natDigits_digits n b ?_
      rw [hd]; exact List.mem_cons_self _ _
    have hpred : ¬((decide (b = 32) || decide (9 ≤ b ∧ b ≤ 13)) = true) := by
      simp only [Bool.or_eq_true, decide_eq_true_eq]
      omega
    simp only [atoiBytes, List.dropWhile_cons]
    rw [if_neg hpred]
    simp only [List.headD_cons]
    rw [if_neg (by omega), if_neg (by omega)]
    rw [← hd, atoiDigitsAcc_natDigits n 0]
    simp

theorem scanFor_exact {c : Nat} {l1 l2 : List Nat}
    (hc : ∀ b ∈ l1, b ≠ c ∧ b ≠ 0) :
    scanFor c (l1 ++ c :: l2) = some l1.length := by
  induction l1 with
  | nil => simp [scanFor]
  | cons b rest ih =>
    have hb := hc b (List.mem_cons_self _ _)
    simp only [List.cons_append, scanFor, if_neg hb.1, if_neg hb.2,
      List.append_eq]
    rw [ih (fun x hx => hc x (List.mem_cons_of_mem _ hx))]
    simp

theorem scanFor_found {c : Nat} {l1 l2 : List Nat} (h0 : 0 ∉ l1) :
    ∃ j, scanFor c (l1 ++ c :: l2) = some j := by
  induction l1 with
  | nil => exact ⟨0, by simp [scanFor]⟩
  | cons b rest ih =>
    by_cases hb : b = c
    · exact ⟨0, by simp [scanFor, hb]⟩
    · have hb0 : b ≠ 0 := fun h => h0 (h ▸ List.mem_cons_self _ _)
      obtain ⟨j, hj⟩ := ih (fun h => h0 (List.mem_cons_of_mem _ h))
      refine ⟨j + 1, ?_⟩
      simp only [List.cons_append, scanFor, if_neg hb, if_neg hb0,
        List.append_eq, hj]
      rfl

theorem byteAt_append (l1 l2 : List Nat) (i : Nat) :
    byteAt (l1 ++ l2) (l1.length + i) = byteAt l2 i := by
  induction l1 with
  | nil => simp
  | cons b rest ih =>
    simp only [List.cons_append, List.length_cons, byteAt, List.getD] at *
    have : rest.length + 1 + i = (rest.length + i) + 1 := by omega
    rw [this]
    simpa [byteAt, List.getD] using ih

theorem byteAt_append_zero (l1 l2 : List Nat) :
    byteAt (l1 ++ l2) l1.length = byteAt l2 0 := by
  simpa using byteAt_append l1 l2 0

theorem drop_append_add (l1 l2 : List Nat) (i : Nat) :
    (l1 ++ l2).drop (l1.length + i) = l2.drop i := by
  induction l1 with
  | nil => simp
  | cons b rest ih =>
    simp only [List.cons_append, List.length_cons, List.drop]
    have : rest.length + 1 + i = (rest.length + i) + 1 := by omega
    rw [this]
    exact ih

theorem encBulk_length (a : List Nat) :
    (encBulk a).length = a.length + (natDigits a.length).length + 5 := by
  simp [encBulk]
  omega

theorem natDigits_len_pos (n : Nat) : 1 ≤ (natDigits n).length := by
  cases hnd : natDigits n with
  | nil => exact absurd hnd (natDigits_ne_nil n)
  | cons b t => simp

theorem parseArgs_step (count : Nat) (a rest pre : List Nat) (st : ParseReq)
    (ha : WFArg a)
    (hbuf : st.buffer = pre ++ encBulk a ++ rest)
    (hoff : st.query_offset = pre.length)
    (hcbl : st.current_bulk_length = none) :
    parseArgs (count + 1) st =
      parseArgs count
        { st with
          offsets := st.offsets ++ [pre.length + (natDigits a.length).length + 3],
          lengths := st.lengths ++ [a.length],
          argc := st.argc + 1,
          pending_bulks := st.pending_bulks.map (· - 1),
          current_bulk_length := none,
          query_offset := pre.length + (encBulk a).length } := by
  obtain ⟨hane, ha0⟩ := ha
  have halen : 1 ≤ a.length := by
    cases a with
    | nil => exact absurd rfl hane
    | cons x t => simp
  have hd1 : 1 ≤ (natDigits a.length).length := natDigits_len_pos _
  have hdig := natDigits_digits a.length
  -- second decomposition: after the dollar byte
  have hB : st.buffer =
      (pre ++ [36]) ++
        (natDigits a.length ++ 13 :: (10 :: (a ++ 13 :: (10 :: rest)))) := by
    rw [hbuf, encBulk]
    simp
  -- third decomposition: at the start of the argument bytes
  have hC : st.buffer =
      (pre ++ [36] ++ natDigits a.length ++ [13, 10]) ++
        (a ++ 13 :: (10 :: rest)) := by
    rw [hbuf, encBulk]
    simp
  -- fourth decomposition: at the closing CR of the argument
  have hD : st.buffer =
      (pre ++ [36] ++ natDigits a.length ++ [13, 10] ++ a) ++
        (13 :: (10 :: rest)) := by
    rw [hbuf, encBulk]
    simp
  have hlen : st.buffer.length =
      pre.length + ((natDigits a.length).length + a.length + 5) + rest.length := by
    rw [hbuf]
    simp [encBulk_length]
    omega
  have h36 : byteAt st.buffer st.query_offset = 36 := by
    rw [hbuf, hoff]
    rw [show pre ++ encBulk a ++ rest = pre ++ (encBulk a ++ rest) by simp]
    rw [byteAt_append_zero]
    simp [encBulk, byteAt]
  have hscan1 : scanFor 13 (st.buffer.drop (st.query_offset + 1)) =
      some (natDigits a.length).length := by
    rw [hB, hoff]
    rw [show pre.length + 1 = (pre ++ [36]).length by simp]
    rw [List.drop_left]
    exact scanFor_exact (fun b hb => by
      have := hdig b hb
      omega)
  have htake : (st.buffer.drop (st.query_offset + 1)).take
      (natDigits a.length).length = natDigits a.length := by
    rw [hB, hoff]
    rw [show pre.length + 1 = (pre ++ [36]).length by simp]
    rw [List.drop_left]
    rw [show natDigits a.length ++ 13 :: (10 :: (a ++ 13 :: (10 :: rest))) =
        natDigits a.length ++ (13 :: (10 :: (a ++ 13 :: (10 :: rest)))) from rfl]
    exact List.take_left _ _
  have hscan2 : ∃ j, scanFor 13
      (st.buffer.drop (pre.length + (natDigits a.length).length + 3)) = some j := by
    rw [hC]
    rw [show pre.length + (natDigits a.length).length + 3 =
        (pre ++ [36] ++ natDigits a.length ++ [13, 10]).length by simp; omega]
    rw [List.drop_left]
    exact scanFor_found ha0
  obtain ⟨j2, hj2⟩ := hscan2
  have hbyte13 : byteAt st.buffer
      (pre.length + (natDigits a.length).length + 3 + a.length) = 13 := by
    rw [hD]
    rw [show pre.length + (natDigits a.length).length + 3 + a.length =
        (pre ++ [36] ++ natDigits a.length ++ [13, 10] ++ a).length by simp; omega]
    rw [byteAt_append_zero]
    rfl
  have hInt : ¬(((a.length : Nat) : Int) < 0) := by omega
  have hc1 : ¬(st.query_offset + 1 ≥ st.buffer.length) := by
    rw [hoff]; omega
  have hc2 : ¬(st.query_offset + (natDigits a.length).length + 3 ≥
      st.buffer.length) := by
    rw [hoff]; omega
  have hc3 : ¬(pre.length + (natDigits a.length).length + 3 + a.length ≥
        st.buffer.length ∨
      byteAt st.buffer (pre.length + (natDigits a.length).length + 3 + a.length)
        ≠ 13) := by
    rw [hbyte13]
    simp
    omega
  simp only [parseArgs, hcbl, h36, ne_eq, not_true_eq_false, if_false,
    reduceIte, hc1, hscan1, htake, atoiBytes_natDigits, hInt,
    Int.toNat_natCast]
  rw [hoff] at hc2 ⊢
  simp only [hc2, if_false, reduceIte, if_pos halen, hj2]
  simp only [hc3, if_false, reduceIte]
  have harith : pre.length + (natDigits a.length).length + 3 + a.length + 2 =
      pre.length + (encBulk a).length := by
    rw [encBulk_length]; omega
  rw [harith]
  rw [if_pos (by omega : a.length > 0)]

/-- The zero-copy argument offsets of a bulk sequence encoded starting at
`start`. -/
def bulkOffsets (start : Nat) : List (List Nat) → List Nat
  | [] => []
  | a :: rest =>
    (start + (natDigits a.length).length + 3) ::
      bulkOffsets (start + (encBulk a).length) rest

theorem parseArgs_encBulks (args : List (List Nat)) :
    ∀ (pre rest : List Nat) (st : ParseReq) (P : Nat),
      (∀ a ∈ args, WFArg a) →
      st.buffer = pre ++ (args.map encBulk).join ++ rest →
      st.query_offset = pre.length →
      st.current_bulk_length = none →
      st.pending_bulks = some P →
      parseArgs args.length st = .done
        { st with
          query_offset := pre.length + ((args.map encBulk).join).length,
          argc := st.argc + args.length,
          offsets := st.offsets ++ bulkOffsets pre.length args,
          lengths := st.lengths ++ args.map List.length,
          pending_bulks := some (P - args.length),
          current_bulk_length := none } := by
  induction args with
  | nil =>
    intro pre rest st P hwf hbuf hoff hcbl hpb
    simp only [List.length_nil, parseArgs]
    cases st
    simp only [ParseReq.mk.injEq] at *
    simp [bulkOffsets, hoff, hcbl, hpb]
  | cons a args ih =>
    intro pre rest st P hwf hbuf hoff hcbl hpb
    have hbuf2 : st.buffer = pre ++ encBulk a ++
        ((args.map encBulk).join ++ rest) := by
      rw [hbuf]; simp
    rw [List.length_cons]
    rw [parseArgs_step args.length a ((args.map encBulk).join ++ rest) pre st
      (hwf a (List.mem_cons_self _ _)) hbuf2 hoff hcbl]
    rw [ih (pre ++ encBulk a) rest _ (P - 1)
      (fun x hx => hwf x (List.mem_cons_of_mem _ hx))
      (by rw [hbuf2]; simp) (by simp) rfl (by rw [hpb]; rfl)]
    simp only [ArgsOut.done.injEq, ParseReq.mk.injEq, bulkOffsets, hpb,
      List.map_cons, List.join, List.flatten_cons, List.length_append,
      List.length_cons, Option.map_some, Option.some.injEq, List.cons_append,
      List.append_assoc, List.append_cancel_left_eq, List.cons.injEq]
    repeat' constructor
    all_goals first
      | rfl
      | omega

/-- The request state after a full successful parse of one encoded command
whose buffer is `buf`: one command, all arguments captured, cursor at the
end of the encoded command. -/
def parsedCmdCore (args : List (List Nat)) (buf : List Nat) : ParseReq :=
  { buffer := buf,
    query_offset := (encCmd args).length,
    is_multibulk := some true,
    argc := args.length,
    num_commands := 1,
    pending_bulks := some 0,
    current_bulk_length := none,
    offsets := bulkOffsets ((natDigits args.length).length + 3) args,
    lengths := args.map List.length,
    parsing_status := PStatus.incomplete }

theorem encCmd_length (args : List (List Nat)) :
    (encCmd args).length =
      (natDigits args.length).length + 3 + ((args.map encBulk).join).length := by
  simp [encCmd]
  omega

theorem flat_len_pos (args : List (List Nat)) (hne : args ≠ []) :
    1 ≤ ((args.map encBulk).join).length := by
  cases args with
  | nil => exact absurd rfl hne
  | cons a t =>
    simp [encBulk_length]
    omega

theorem parseLoop_encCmd_core (args : List (List Nat)) (rest : List Nat)
    (hwf : WFCmd args) :
    parseLoop ((encCmd args ++ rest).length + 2)
      { initParseReq (encCmd args ++ rest) with is_multibulk := some true } =
      parseLoop ((encCmd args ++ rest).length + 1)
        { parsedCmdCore args (encCmd args ++ rest) with
            query_offset := (encCmd args).length } := by
  obtain ⟨hne, hwfa⟩ := hwf
  have hdN := natDigits_len_pos args.length
  have hdig := natDigits_digits args.length
  have hflat := flat_len_pos args hne
  have hencLen := encCmd_length args
  have hBlen : (encCmd args ++ rest).length =
      (encCmd args).length + rest.length := by simp
  have h42 : byteAt (encCmd args ++ rest) 0 = 42 := by
    simp [encCmd, byteAt]
  have hdrop1 : (encCmd args ++ rest).drop 1 =
      natDigits args.length ++
        13 :: (10 :: (((args.map encBulk).join) ++ rest)) := by
    simp [encCmd]
  have hscan1 : scanFor 13 ((encCmd args ++ rest).drop 1) =
      some (natDigits args.length).length := by
    rw [hdrop1]
    exact scanFor_exact (fun b hb => by have := hdig b hb; omega)
  have htake1 : ((encCmd args ++ rest).drop 1).take
      (natDigits args.length).length = natDigits args.length := by
    rw [hdrop1]
    exact List.take_left _ _
  have hc0 : ¬((0 : Nat) ≥ (encCmd args ++ rest).length) := by
    rw [hBlen, hencLen]; omega
  have hc1 : ¬((1 : Nat) ≥ (encCmd args ++ rest).length) := by
    rw [hBlen, hencLen]; omega
  have hcInt : ¬((args.length : Int) < 0) := by omega
  have hc2 : ¬(1 + (natDigits args.length).length + 2 ≥
      (encCmd args ++ rest).length) := by
    rw [hBlen, hencLen]; omega
  rw [show (encCmd args ++ rest).length + 2 =
      ((encCmd args ++ rest).length + 1) + 1 from rfl]
  rw [parseLoop]
  simp only [initParseReq, h42, if_pos rfl, if_neg hc0, if_neg hc1,
    hscan1, htake1, atoiBytes_natDigits, Int.toNat_natCast, if_neg hcInt,
    if_neg hc2, gt_iff_lt, Nat.lt_irrefl, if_false, reduceIte, Nat.zero_add]
  rw [parseArgs_encBulks args (42 :: (natDigits args.length ++ [13, 10]))
    rest _ args.length hwfa (by simp [encCmd]) (by simp; omega) rfl rfl]
  congr 1
  simp only [parsedCmdCore, ParseReq.mk.injEq]
  repeat' constructor
  all_goals first
    | rfl
    | omega
    | (simp [hencLen]; try omega)
    | simp

/-- The core lemma with the cursor field folded back into parsedCmdCore. -/
theorem parseLoop_encCmd (args : List (List Nat)) (rest : List Nat)
    (hwf : WFCmd args) :
    parseLoop ((encCmd args ++ rest).length + 2)
      { initParseReq (encCmd args ++ rest) with is_multibulk := some true } =
      parseLoop ((encCmd args ++ rest).length + 1)
        (parsedCmdCore args (encCmd args ++ rest)) := by
  exact parseLoop_encCmd_core args rest hwf

/-- After a full parse whose buffer holds exactly one encoded command, the
next outer-loop iteration exits naturally: the cursor is at the buffer end. -/
theorem parseLoop_parsedCmd_nil (args : List (List Nat)) (fuel : Nat) :
    parseLoop (fuel + 1) (parsedCmdCore args (encCmd args)) =
      LoopOut.finished (parsedCmdCore args (encCmd args)) := by
  rw [parseLoop]
  dsimp only [parsedCmdCore]
  rw [if_pos (Nat.le_refl (encCmd args).length)]

/-- When the bytes of a further command follow the parsed one, the next
outer-loop iteration splits: the buffer is truncated at the cursor and the
remainder is handed to a fresh request. -/
theorem parseLoop_parsedCmd_split (args : List (List Nat)) (r : List Nat)
    (fuel : Nat) :
    parseLoop (fuel + 1) (parsedCmdCore args (encCmd args ++ 42 :: r)) =
      LoopOut.split (parsedCmdCore args (encCmd args)) (42 :: r) := by
  have h42 : byteAt (encCmd args ++ 42 :: r) (encCmd args).length = 42 := by
    rw [byteAt_append_zero]
    rfl
  rw [parseLoop]
  dsimp only [parsedCmdCore]
  rw [if_neg (by simp : ¬((encCmd args).length ≥
    (encCmd args ++ 42 :: r).length))]
  simp only [h42, reduceIte, if_pos rfl, List.take_left, List.drop_left,
    gt_iff_lt, Nat.zero_lt_one, if_true]

/-- The request state after parseRequest succeeds on one encoded command:
the parsedCmdCore fields with parsing_status promoted to ok by the cleanup
block. -/
def parsedCmd (args : List (List Nat)) : ParseReq :=
  { parsedCmdCore args (encCmd args) with parsing_status := PStatus.ok }

/-- The cleanup block promotes the fully consumed multibulk request to ok. -/
theorem parseCleanup_parsedCmd (args : List (List Nat)) :
    parseCleanup (parsedCmdCore args (encCmd args)) PStatus.incomplete =
      parsedCmd args := by
  simp [parseCleanup, parsedCmdCore, parsedCmd, pbLE0]

/-- parseRequest on a buffer holding exactly one well-formed encoded command
parses it completely: status ok, one command, no split. -/
theorem parseRequest_encCmd_nil (args : List (List Nat)) (hwf : WFCmd args) :
    parseRequest (initParseReq (encCmd args)) =
      some ⟨parsedCmd args, none⟩ := by
  have hcore := parseLoop_encCmd args [] hwf
  simp only [List.append_nil] at hcore
  simp only [initParseReq] at hcore
  have h42 : byteAt (encCmd args) 0 = 42 := rfl
  simp only [parseRequest, initParseReq, ne_eq, h42, decide_True, not_true,
    if_false, reduceIte]
  rw [hcore]
  rw [parseLoop_parsedCmd_nil args (encCmd args).length]
  dsimp only
  rw [parseCleanup_parsedCmd]

/-- parseRequest on one well-formed encoded command followed by the start of
another parses the first completely and splits the remainder out. -/
theorem parseRequest_encCmd_split (args : List (List Nat)) (r : List Nat)
    (hwf : WFCmd args) :
    parseRequest (initParseReq (encCmd args ++ 42 :: r)) =
      some ⟨parsedCmd args, some (42 :: r)⟩ := by
  have hcore := parseLoop_encCmd args (42 :: r) hwf
  simp only [initParseReq] at hcore
  have h42 : byteAt (encCmd args ++ 42 :: r) 0 = 42 := by
    rw [show (0 : Nat) = (List.nil (α := Nat)).length + 0 from rfl]
    rfl
  simp only [parseRequest, initParseReq, ne_eq, h42, decide_True, not_true,
    if_false, reduceIte]
  rw [hcore]
  rw [parseLoop_parsedCmd_split args r (encCmd args ++ 42 :: r).length]
  dsimp only
  rw [parseCleanup_parsedCmd]

/-- The expected chain of request objects for a pipeline of commands: each
entry holds one fully parsed command, and every entry but the last records
the bytes handed to the next request object (the prev_request/next_request
link created by the split). -/
def pipelineResults : List (List (List Nat)) → List ParseResult
  | [] => []
  | c :: cs =>
    ⟨parsedCmd c, if cs = [] then none else some (encCmds cs)⟩ ::
      pipelineResults cs

theorem pipelineResults_length (cs : List (List (List Nat))) :
    (pipelineResults cs).length = cs.length := by
  induction cs with
  | nil => rfl
  | cons c cs ih => simp [pipelineResults, ih]

theorem pipelineResults_reqs (cs : List (List (List Nat))) :
    (pipelineResults cs).map (fun res => res.req) = cs.map parsedCmd := by
  induction cs with
  | nil => rfl
  | cons c cs ih => simp [pipelineResults, ih]

theorem mem_pipelineResults (cs : List (List (List Nat)))
    (res : ParseResult) (hm : res ∈ pipelineResults cs) :
    ∃ c ∈ cs, res.req = parsedCmd c := by
  induction cs with
  | nil => cases hm
  | cons c cs ih =>
    simp only [pipelineResults, List.mem_cons] at hm
    cases hm with
    | inl he => exact ⟨c, List.mem_cons_self _ _, by rw [he]⟩
    | inr ht =>
      obtain ⟨c2, hc2, he2⟩ := ih ht
      exact ⟨c2, List.mem_cons_of_mem _ hc2, he2⟩

/-- The readQuery parse drain on a pipeline of well-formed encoded commands
produces exactly the expected chain of request objects. -/
theorem splitAll_encCmds (cs : List (List (List Nat)))
    (h : ∀ c ∈ cs, WFCmd c) :
    splitAll cs.length (encCmds cs) = pipelineResults cs := by
  induction cs with
  | nil => rfl
  | cons c cs ih =>
    cases cs with
    | nil =>
      simp only [List.length_cons, List.length_nil, encCmds, List.map_cons,
        List.map_nil, List.join, List.flatten_cons, List.flatten_nil,
        List.append_nil]
      rw [splitAll]
      rw [parseRequest_encCmd_nil c (h c (List.mem_cons_self _ _))]
      rfl
    | cons c2 cs2 =>
      have hr : encCmds (c2 :: cs2) =
          42 :: ((natDigits (c2.length) ++ [13, 10] ++
            (c2.map encBulk).join) ++ encCmds cs2) := by
        simp [encCmds, encCmd]
      have henc : encCmds (c :: c2 :: cs2) =
          encCmd c ++ encCmds (c2 :: cs2) := by
        simp [encCmds]
      rw [List.length_cons, splitAll, henc, hr]
      rw [parseRequest_encCmd_split c _ (h c (List.mem_cons_self _ _))]
      dsimp only
      rw [← hr]
      simp only [List.length_cons] at ih ⊢
      rw [ih (fun x hx => h x (List.mem_cons_of_mem _ hx))]
      simp [pipelineResults]

/-- C8: parsing a byte stream of K ≥ 1 concatenated well-formed multibulk
commands yields exactly K request objects, in order, each holding one fully
parsed command with parsing_status ok and num_commands 1, every extra
command split into a new request whose buffer is recorded as the split
component (the prev_request/next_request link). -/
theorem C8_pipeline_split (cs : List (List (List Nat))) (h1 : cs ≠ [])
    (h2 : ∀ c ∈ cs, WFCmd c) :
    (splitAll cs.length (encCmds cs)).length = cs.length ∧
    splitAll cs.length (encCmds cs) = pipelineResults cs ∧
    (splitAll cs.length (encCmds cs)).map (fun res => res.req) =
      cs.map parsedCmd ∧
    ∀ res ∈ splitAll cs.length (encCmds cs),
      res.req.parsing_status = PStatus.ok ∧ res.req.num_commands = 1 := by
  have hmain := splitAll_encCmds cs h2
  refine ⟨by rw [hmain, pipelineResults_length],
          hmain,
          by rw [hmain, pipelineResults_reqs],
          fun res hres => ?_⟩
  rw [hmain] at hres
  obtain ⟨c, _, he⟩ := mem_pipelineResults cs res hres
  rw [he]
  exact ⟨rfl, rfl⟩

/-- Two concrete pipelined commands: GET k1, GET k2. -/
def c8Cmds : List (List (List Nat)) :=
  [[[103, 101, 116], [107, 49]], [[103, 101, 116], [107, 50]]]

/-- Witness: the C8 theorem at the concrete two-command pipeline. -/
theorem C8_pipeline_split_witness :
    (splitAll c8Cmds.length (encCmds c8Cmds)).length = c8Cmds.length ∧
    splitAll c8Cmds.length (encCmds c8Cmds) = pipelineResults c8Cmds ∧
    (splitAll c8Cmds.length (encCmds c8Cmds)).map (fun res => res.req) =
      c8Cmds.map parsedCmd ∧
    ∀ res ∈ splitAll c8Cmds.length (encCmds c8Cmds),
      res.req.parsing_status = PStatus.ok ∧ res.req.num_commands = 1 :=
  C8_pipeline_split c8Cmds (by decide) (by decide)

/-- Modelled from the spec: locally generated errors are single-line error
frames, a leading - then the message then CRLF (addReplyError is not under
src/). -/
def addReplyErrorBytes (msg : String) : List Nat :=
  45 :: (msg.data.map Char.toNat) ++ [13, 10]

/-- Modelled from the spec: the Unsupported-command error frame, the command
name quoted between bytes 39. -/
def unsupportedReplyBytes (name : List Nat) : List Nat :=
  45 :: ((String.data "Unsupported command: ").map Char.toNat) ++
    [39] ++ name ++ [39, 13, 10]

/-- The client-visible outcome of one processRequest call as readQuery
handles it (proxy.c lines 1516 and 1620): the pair (freeClient runs, bytes
appended to the client output buffer). PARSE_STATUS_ERROR makes
processRequest return 0 before any reply is queued, so readQuery calls
freeClient with an empty reply; the invalid_request label frees only the
request, queues the error frame and returns 1. The cluster send performed
after a successful enqueue is outside this model. -/
def readQueryOutcome : ProcResult → Bool × List Nat
  | ProcResult.parseFailed => (true, [])
  | ProcResult.incomplete => (false, [])
  | ProcResult.rejected msg => (false, addReplyErrorBytes msg)
  | ProcResult.rejectedUnsupported name => (false, unsupportedReplyBytes name)
  | ProcResult.enqueued _ _ => (false, [])

/-- A framing violation: *1 then X3 where a $-header is expected. -/
def c5Bad : List Nat :=
  [42, 49, 13, 10, 88, 51, 13, 10, 102, 111, 111, 13, 10]

/-- C5 counterexample: on the concrete framing violation c5Bad the parse
ends in PARSE_STATUS_ERROR, processRequest returns the failure outcome, and
readQuery frees the whole client with no reply queued — not the claimed
-Invalid request reply with the connection kept. -/
theorem C5_parse_error_frees_client :
    (parseRequest (initParseReq c5Bad)).map
        (fun res => res.req.parsing_status) = some PStatus.error ∧
    processRequest [] [] PStatus.error [] 1 = ProcResult.parseFailed ∧
    readQueryOutcome ProcResult.parseFailed = (true, []) ∧
    readQueryOutcome ProcResult.parseFailed ≠
      (false, addReplyErrorBytes errInvalidRequest) := by
  refine ⟨by decide, rfl, rfl, by decide⟩

/-- C5 amended: for every request whose parse ends in PARSE_STATUS_ERROR,
processRequest fails without queuing any reply and readQuery terminates the
whole client connection; the -Invalid request error frame with the client
kept alive belongs to the parseable-but-invalid rejection paths instead. -/
theorem C5_parse_error_amended (table : List (List Nat × redisCommandDef))
    (m : RaxMap) (args : List (List Nat)) (numCommands : Nat) :
    processRequest table m PStatus.error args numCommands =
      ProcResult.parseFailed ∧
    readQueryOutcome ProcResult.parseFailed = (true, []) ∧
    ∀ msg, readQueryOutcome (ProcResult.rejected msg) =
      (false, addReplyErrorBytes msg) := by
  exact ⟨rfl, rfl, fun msg => rfl⟩

/-- One in-flight client request as the dispatch code sees it (proxy.h):
buffer length, bytes written to the node socket, routed slot, pipelined
predecessor, and the two handler flags. -/
structure CReq where
  total : Nat
  written : Nat
  slot : Nat
  prev : Option Nat
  hwh : Bool
  hrh : Bool
deriving DecidableEq, Repr

/-- The dispatch state of one (client, connection pool, cluster node fd):
the live requests keyed by id, the requests_to_send and requests_pending
lists (ids), the AE_WRITABLE/AE_READABLE bits of the node fd event, the
clientData installed with each proc (aeCreateFileEvent overwrites it per
fd), the order in which replies were appended to the client buffer, the
ghost to_send enqueue order, and the next fresh id. -/
structure PoolSt where
  reqs : List (Nat × CReq)
  toSend : List Nat
  pending : List Nat
  maskW : Bool
  maskR : Bool
  wData : Option Nat
  rData : Option Nat
  delivered : List Nat
  arrived : List Nat
  nextId : Nat
deriving DecidableEq, Repr

def emptyCReq : CReq := ⟨0, 0, 0, none, false, false⟩

def getReq (st : PoolSt) (rid : Nat) : CReq :=
  ((st.reqs.find? (fun kv => decide (kv.1 = rid))).map (fun kv => kv.2)).getD
    emptyCReq

def setReq (st : PoolSt) (rid : Nat) (r : CReq) : PoolSt :=
  { st with reqs := st.reqs.map (fun kv => if kv.1 = rid then (rid, r) else kv) }

/-- Embedding of `prepareRequestForReadingReply` (proxy.c lines 1373-1401)
on the success path: return when the read handler is already installed,
otherwise install AE_READABLE on the node fd — overwriting the event
clientData — and set has_read_handler. -/
def prepareRequestForReadingReply (st : PoolSt) (rid : Nat) : PoolSt :=
  let r := getReq st rid
  if r.hrh then st
  else
    let st := setReq st rid { r with hrh := true }
    { st with maskR := true, rData := some rid }

/-- Embedding of `handleNextPendingRequest` (proxy.c lines 1401-1416): no
pending requests succeeds; otherwise prepare the FIRST pending request for
reading its reply. -/
def handleNextPendingRequest (st : PoolSt) : PoolSt :=
  match st.pending with
  | [] => st
  | h :: _ => prepareRequestForReadingReply st h

/-- The body of `sendRequestToCluster` (proxy.c lines 1425-1484), single
client and established connection, parameterized by the write step so the
mutual recursion with writeToCluster is by fuel there alone: an
already-installed write handler succeeds immediately; with requests pending
or a pipelined predecessor and a registered event on the node fd, a
predecessor routed to a different slot defers; otherwise write, and install
AE_WRITABLE with the request as clientData when the write was partial. -/
def sendWith (write : PoolSt → Nat → Nat → PoolSt × Bool)
    (st : PoolSt) (rid acc : Nat) : PoolSt × Bool :=
  let r := getReq st rid
  if r.hwh then (st, true)
  else if ((0 < st.pending.length ∨ r.prev ≠ none) ∧ (st.maskW ∨ st.maskR)) ∧
      (match r.prev with
       | some p => decide ((getReq st p).slot ≠ r.slot)
       | none => false) = true then (st, true)
  else
    match write st rid acc with
    | (st2, false) => (st2, false)
    | (st2, true) =>
      let r2 := getReq st2 rid
      if r2.written = r2.total then (st2, true)
      else
        let st3 := { st2 with maskW := true, wData := some rid }
        (setReq st3 rid { r2 with hwh := true }, true)

/-- The body of `handleNextRequestToCluster` (proxy.c lines 1489-1512):
succeed when requests_to_send is empty, otherwise send its FIRST request
(the enclosing while loops run this until it succeeds; in this model it
never fails, so once). -/
def handleNextWith (write : PoolSt → Nat → Nat → PoolSt × Bool)
    (st : PoolSt) (acc : Nat) : PoolSt :=
  match st.toSend with
  | [] => st
  | h :: _ => (sendWith write st h acc).1

/-- Embedding of `writeToCluster` (proxy.c lines 959-1017) for one event
with a socket accepting `acc` bytes, single client (isClusterFileEventBusy
is always false: the event clientData belongs to the same client). On a
complete write: delete AE_WRITABLE from the node fd (whoever installed it),
clear the request write-handler flag, move the request from requests_to_send
to the tail of requests_pending, install the read handler, run the
handleNextRequestToCluster loop, and drain the first pending request when
requests_to_send is empty. -/
def writeToCluster : Nat → PoolSt → Nat → Nat → PoolSt × Bool
  | 0, st, _, _ => (st, false)
  | fuel + 1, st, rid, acc =>
    let r := getReq st rid
    let w := min r.total (r.written + acc)
    let st := setReq st rid { r with written := w }
    if w = r.total then
      let st := { st with maskW := false }
      let r2 := getReq st rid
      let st := setReq st rid { r2 with hwh := false }
      let st := { st with pending := st.pending ++ [rid],
                          toSend := st.toSend.erase rid }
      let st := prepareRequestForReadingReply st rid
      let st := handleNextWith (writeToCluster fuel) st acc
      if st.toSend.isEmpty then (handleNextPendingRequest st, true)
      else (st, true)
    else (st, true)

/-- `sendRequestToCluster` proper: its body with the fueled write step. -/
def sendRequestToCluster (fuel : Nat) (st : PoolSt) (rid acc : Nat) :
    PoolSt × Bool :=
  sendWith (writeToCluster fuel) st rid acc

/-- `handleNextRequestToCluster` proper: its body with the fueled write
step. -/
def handleNextRequestToCluster (fuel : Nat) (st : PoolSt) (acc : Nat) :
    PoolSt :=
  handleNextWith (writeToCluster fuel) st acc

/-- The enqueue-and-send step of `processRequest` (proxy.c lines 1562-1575)
for a freshly routed request: append it to requests_to_send and — the event
on the node fd never being busy for a single client — try to send it
immediately. -/
def clientArrive (st : PoolSt) (total slot : Nat) (prev : Option Nat)
    (acc : Nat) : PoolSt :=
  let rid := st.nextId
  let st := { st with
    reqs := st.reqs ++ [(rid, ⟨total, 0, slot, prev, false, false⟩)],
    toSend := st.toSend ++ [rid],
    arrived := st.arrived ++ [rid],
    nextId := rid + 1 }
  (sendRequestToCluster (st.toSend.length + st.pending.length + 2)
    st rid acc).1

/-- The success path of `readClusterReply` (proxy.c lines 1672-1747) when a
complete reply is available: the AE_READABLE proc runs with the event
clientData as its request; that request is removed from requests_pending,
AE_READABLE is deleted, the reply is appended to the client buffer, the
request is freed (its event-deletion block is dead: ctx stays NULL), and
the handleNextPendingRequest loop runs. -/
def readClusterReply (st : PoolSt) : PoolSt :=
  if st.maskR then
    match st.rData with
    | none => st
    | some rid =>
      let st := { st with pending := st.pending.erase rid, maskR := false }
      let r := getReq st rid
      let st := setReq st rid { r with hrh := false }
      let st := { st with delivered := st.delivered ++ [rid],
                          reqs := st.reqs.filter (fun kv => kv.1 ≠ rid),
                          rData := none }
      handleNextPendingRequest st
  else st

/-- The request-flushing part of `beforeThreadSleep` (proxy.c lines 486-499)
for this pool: the handleNextRequestToCluster loop. -/
def beforeSleepStep (st : PoolSt) (acc : Nat) : PoolSt :=
  handleNextRequestToCluster (st.toSend.length + st.pending.length + 2)
    st acc

def c2Init : PoolSt := ⟨[], [], [], false, false, none, none, [], [], 1⟩

/-- Request 1 (2 bytes, slot 0) arrives and the socket accepts 1 byte. -/
def c2Step1 : PoolSt := clientArrive c2Init 2 0 none 1

/-- Request 2 (same slot) arrives and the socket accepts everything. -/
def c2Step2 : PoolSt := clientArrive c2Step1 2 0 none 2

/-- Request 2 reply arrives and is forwarded. -/
def c2Step3 : PoolSt := readClusterReply c2Step2

theorem find?_append_ne (l : List (Nat × CReq)) (k k2 : Nat) (v : CReq)
    (hne : k ≠ k2) :
    (l ++ [(k2, v)]).find? (fun kv => decide (kv.1 = k)) =
      l.find? (fun kv => decide (kv.1 = k)) := by
  induction l with
  | nil => simp [Ne.symm hne]
  | cons kv t ih =>
    simp only [List.cons_append, List.find?]
    cases hc : decide (kv.1 = k) with
    | true => rfl
    | false => exact ih

theorem find?_fresh (l : List (Nat × CReq)) (k : Nat) (v : CReq)
    (h : ∀ kv ∈ l, kv.1 ≠ k) :
    (l ++ [(k, v)]).find? (fun kv => decide (kv.1 = k)) = some (k, v) := by
  induction l with
  | nil => simp
  | cons kv t ih =>
    simp only [List.cons_append, List.find?]
    rw [show (decide (kv.1 = k)) = false from by
      simp [h kv (List.mem_cons_self _ _)]]
    exact ih (fun x hx => h x (List.mem_cons_of_mem _ hx))

theorem find?_setIf_ne (l : List (Nat × CReq)) (rid k : Nat) (v : CReq)
    (hne : k ≠ rid) :
    (l.map (fun kv => if kv.1 = rid then (rid, v) else kv)).find?
        (fun kv => decide (kv.1 = k)) =
      l.find? (fun kv => decide (kv.1 = k)) := by
  induction l with
  | nil => rfl
  | cons kv t ih =>
    by_cases hk : kv.1 = rid
    · simp only [List.map_cons, if_pos hk, List.find?]
      rw [show (decide (rid = k)) = false from by simp [Ne.symm hne]]
      rw [show (decide (kv.1 = k)) = false from by simp [hk, Ne.symm hne]]
      exact ih
    · simp only [List.map_cons, if_neg hk, List.find?]
      cases hc : decide (kv.1 = k) with
      | true => rfl
      | false => exact ih

theorem map_setIf_fresh (l : List (Nat × CReq)) (k : Nat) (v v2 : CReq)
    (h : ∀ kv ∈ l, kv.1 ≠ k) :
    ((l ++ [(k, v)]).map (fun kv => if kv.1 = k then (k, v2) else kv)) =
      l ++ [(k, v2)] := by
  induction l with
  | nil => simp
  | cons kv t ih =>
    simp only [List.cons_append, List.map_cons,
      if_neg (h kv (List.mem_cons_self _ _)), List.cons.injEq, true_and]
    exact ih (fun x hx => h x (List.mem_cons_of_mem _ hx))

/-- The amended-run invariant for full-write arrival traces: nothing ever
waits in requests_to_send, no writable event is installed, the pending list
is exactly the to_send enqueue order, ids are fresh, and the head of
pending has its read handler installed. -/
def C2Inv (st : PoolSt) : Prop :=
  st.toSend = [] ∧ st.maskW = false ∧ st.pending = st.arrived ∧
  (∀ kv ∈ st.reqs, kv.1 < st.nextId) ∧
  (match st.pending with
   | [] => True
   | h :: _ => (getReq st h).hrh = true ∧ h < st.nextId)

/-- A full-write arrival in closed form: the request goes straight through
writeToCluster to the tail of requests_pending with its read handler
installed, and requests_to_send stays empty. -/
theorem clientArrive_full (st : PoolSt) (total slot : Nat) (hInv : C2Inv st) :
    clientArrive st total slot none total =
      { st with
        reqs := st.reqs ++ [(st.nextId, ⟨total, total, slot, none, false, true⟩)],
        toSend := [],
        pending := st.pending ++ [st.nextId],
        maskW := false,
        maskR := true,
        rData := some st.nextId,
        arrived := st.arrived ++ [st.nextId],
        nextId := st.nextId + 1 } := by
  obtain ⟨hts, hmw, hpa, hfresh, hhead⟩ := hInv
  have hne : ∀ kv ∈ st.reqs, kv.1 ≠ st.nextId :=
    fun kv hkv => Nat.ne_of_lt (hfresh kv hkv)
  have hfind0 : (st.reqs ++ [(st.nextId,
      (⟨total, 0, slot, none, false, false⟩ : CReq))]).find?
        (fun kv => decide (kv.1 = st.nextId)) =
      some (st.nextId, ⟨total, 0, slot, none, false, false⟩) :=
    find?_fresh _ _ _ hne
  have hmap0 : ((st.reqs ++ [(st.nextId,
      (⟨total, 0, slot, none, false, false⟩ : CReq))]).map
        (fun kv => if kv.1 = st.nextId
          then (st.nextId, (⟨total, total, slot, none, false, false⟩ : CReq))
          else kv)) =
      st.reqs ++ [(st.nextId, ⟨total, total, slot, none, false, false⟩)] :=
    map_setIf_fresh _ _ _ _ hne
  have hfind1 : (st.reqs ++ [(st.nextId,
      (⟨total, total, slot, none, false, false⟩ : CReq))]).find?
        (fun kv => decide (kv.1 = st.nextId)) =
      some (st.nextId, ⟨total, total, slot, none, false, false⟩) :=
    find?_fresh _ _ _ hne
  have hmap1 : ((st.reqs ++ [(st.nextId,
      (⟨total, total, slot, none, false, false⟩ : CReq))]).map
        (fun kv => if kv.1 = st.nextId
          then (st.nextId, (⟨total, total, slot, none, false, false⟩ : CReq))
          else kv)) =
      st.reqs ++ [(st.nextId, ⟨total, total, slot, none, false, false⟩)] :=
    map_setIf_fresh _ _ _ _ hne
  have hmap2 : ((st.reqs ++ [(st.nextId,
      (⟨total, total, slot, none, false, false⟩ : CReq))]).map
        (fun kv => if kv.1 = st.nextId
          then (st.nextId, (⟨total, total, slot, none, false, true⟩ : CReq))
          else kv)) =
      st.reqs ++ [(st.nextId, ⟨total, total, slot, none, false, true⟩)] :=
    map_setIf_fresh _ _ _ _ hne
  have hfind2 : (st.reqs ++ [(st.nextId,
      (⟨total, total, slot, none, false, true⟩ : CReq))]).find?
        (fun kv => decide (kv.1 = st.nextId)) =
      some (st.nextId, ⟨total, total, slot, none, false, true⟩) :=
    find?_fresh _ _ _ hne
  dsimp only [clientArrive]
  rw [hts]
  rw [show ([] ++ [st.nextId] : List Nat).length + st.pending.length + 2 =
      ((st.pending.length + 1) + 1) + 1 from by
    simp only [List.nil_append, List.length_cons, List.length_nil]; omega]
  cases hp : st.pending with
  | nil =>
    rw [hp] at hhead
    simp only [getReq, setReq, writeToCluster, sendRequestToCluster,
      sendWith, handleNextWith,
      handleNextPendingRequest, prepareRequestForReadingReply,
      hfind0, hmap0, hfind1, hmap1, hmap2, hfind2,
      Option.map_some, Option.map_some', Option.getD_some, Nat.zero_add, Nat.min_self,
      List.nil_append, List.erase_cons_head, List.isEmpty_nil,
      Bool.false_eq_true, if_false, if_true, eq_self_iff_true,
      reduceIte, ne_eq, and_false, false_and, and_true, true_and,
      or_false, false_or, not_true, List.length_nil, List.length_cons,
      decide_True, decide_False]
  | cons h t =>
    rw [hp] at hhead
    obtain ⟨hh1, hh2⟩ := hhead
    have hfa : (st.reqs ++ [(st.nextId,
        (⟨total, total, slot, none, false, true⟩ : CReq))]).find?
          (fun kv => decide (kv.1 = h)) =
        st.reqs.find? (fun kv => decide (kv.1 = h)) :=
      find?_append_ne _ _ _ _ (Nat.ne_of_lt hh2)
    simp only [getReq] at hh1
    simp only [getReq, setReq, writeToCluster, sendRequestToCluster,
      sendWith, handleNextWith,
      handleNextPendingRequest, prepareRequestForReadingReply,
      hfind0, hmap0, hfind1, hmap1, hmap2, hfind2, hfa, hh1,
      Option.map_some, Option.map_some', Option.getD_some, Nat.zero_add, Nat.min_self,
      List.nil_append, List.cons_append, List.erase_cons_head,
      List.isEmpty_nil, List.isEmpty_cons,
      Bool.false_eq_true, if_false, if_true, eq_self_iff_true,
      reduceIte, ne_eq, and_false, false_and, and_true, true_and,
      or_false, false_or, not_true, List.length_nil, List.length_cons,
      decide_True, decide_False]

theorem C2Inv_clientArrive (st : PoolSt) (total slot : Nat) (h : C2Inv st) :
    C2Inv (clientArrive st total slot none total) := by
  rw [clientArrive_full st total slot h]
  obtain ⟨hts, hmw, hpa, hfresh, hhead⟩ := h
  have hne : ∀ kv ∈ st.reqs, kv.1 ≠ st.nextId :=
    fun kv hkv => Nat.ne_of_lt (hfresh kv hkv)
  refine ⟨rfl, rfl, ?_, ?_, ?_⟩
  · dsimp only
    rw [hpa]
  · intro kv hkv
    dsimp only at hkv ⊢
    rcases List.mem_append.mp hkv with h1 | h2
    · exact Nat.lt_succ_of_lt (hfresh kv h1)
    · rw [List.mem_singleton.mp h2]
      exact Nat.lt_succ_self _
  · dsimp only
    cases hp : st.pending with
    | nil =>
      simp only [hp, List.nil_append]
      constructor
      · simp [getReq, find?_fresh st.reqs st.nextId _ hne]
      · exact Nat.lt_succ_self _
    | cons hd tl =>
      rw [hp] at hhead
      obtain ⟨hh1, hh2⟩ := hhead
      simp only [hp, List.cons_append]
      constructor
      · simp only [getReq] at hh1 ⊢
        rw [find?_append_ne st.reqs hd st.nextId _ (Nat.ne_of_lt hh2)]
        exact hh1
      · exact Nat.lt_succ_of_lt hh2

/-- A trace of arrivals in which the node socket always accepts the whole
request buffer (no partial writes): each action enqueues a routed request
of the given (length, slot) and the immediate send completes. -/
def runArrivals : PoolSt → List (Nat × Nat) → PoolSt
  | st, [] => st
  | st, (total, slot) :: rest =>
    runArrivals (clientArrive st total slot none total) rest

theorem C2Inv_runArrivals (acts : List (Nat × Nat)) (st : PoolSt)
    (h : C2Inv st) : C2Inv (runArrivals st acts) := by
  induction acts generalizing st with
  | nil => exact h
  | cons a rest ih => exact ih _ (C2Inv_clientArrive st a.1 a.2 h)

theorem C2Inv_c2Init : C2Inv c2Init := by
  refine ⟨rfl, rfl, rfl, ?_, trivial⟩
  intro kv hkv
  cases hkv


/-- C2 counterexample: request 1 (2 bytes, slot 0) arrives and the socket
accepts only 1 byte, so AE_WRITABLE is installed for it; request 2 (same
slot) then arrives and is written completely, which deletes AE_WRITABLE
from the shared node fd and moves request 2 to requests_pending while
request 1 — enqueued on requests_to_send first — is still there: the
pending list is not FIFO in to_send enqueue order. Request 2 reply is
then forwarded while request 1 is still unwritten, and the dispatch pass
of beforeThreadSleep cannot revive request 1 (its has_write_handler flag
is still set), even with a fully willing socket. -/
theorem C2_partial_write_breaks_fifo :
    c2Step2.arrived = [1, 2] ∧
    (getReq c2Step2 1).slot = (getReq c2Step2 2).slot ∧
    c2Step2.pending = [2] ∧
    c2Step2.toSend = [1] ∧
    (getReq c2Step2 1).hwh = true ∧ c2Step2.maskW = false ∧
    c2Step3.delivered = [2] ∧
    (getReq c2Step3 1).written < (getReq c2Step3 1).total ∧
    beforeSleepStep c2Step3 100 = c2Step3 := by
  decide

/-- C2 amended: in the absence of partial writes the pending list IS
strictly FIFO in to_send enqueue order: on every trace of arrivals whose
writes complete immediately, requests enter requests_pending exactly in
the order they were enqueued on requests_to_send, which stays empty. -/
theorem C2_pending_fifo_amended (acts : List (Nat × Nat)) :
    (runArrivals c2Init acts).pending = (runArrivals c2Init acts).arrived ∧
    (runArrivals c2Init acts).toSend = [] := by
  have h := C2Inv_runArrivals acts c2Init C2Inv_c2Init
  exact ⟨h.2.2.1, h.1⟩

end RCProxy
